import Mathlib

/-! Verification of the TableWriter repository: a shallow embedding of the
buffering-and-rendering pipeline of the Go `Writer` type, together with
theorems about its formatting stages.  Go strings are modelled as lists of
runes; every character appearing in concrete inputs below is single-byte, so
Go's byte lengths coincide with the character counts used here.  Go
operations that can panic (out-of-range string slicing, `bytes.Repeat` and
`strings.Repeat` with a negative count) are modelled as `Option`-valued
functions returning `none` at exactly the panicking inputs. -/

namespace TableWriter

/-- A Go string, modelled as a list of runes. -/
abbrev GoStr := List Char

/-- Flag constant from the source (`1 << iota`): strip ANSI color codes. -/
def StripColours : Nat := 1

/-- Flag constant from the source: center the text horizontally. -/
def AlignMiddle : Nat := 2

/-- Flag constant from the source: shift each cell content to the right. -/
def AlignRight : Nat := 4

/-- Flag constant from the source: remove the minimum separation padding. -/
def RemoveLeastPad : Nat := 8

/-- Flag constant from the source: disable truncation of long fields. -/
def PreserveLongFields : Nat := 16

/-- Flag constant from the source: use only ASCII dividers. -/
def AsciiTable : Nat := 32

/-- Convenience: a Go string literal as a rune list. -/
def goStr (s : String) : GoStr := s.toList

/-- Go `s[:k]` on a string: panics (`none`) when `k` is negative or exceeds
the length. -/
def goSliceTo (s : GoStr) (k : Int) : Option GoStr :=
  if k < 0 ∨ (s.length : Int) < k then none else some (s.take k.toNat)

/-- Go `bytes.Repeat` of a single byte with an `int` count: panics (`none`)
on a negative count. -/
def goRepeat (ch : Char) (n : Int) : Option GoStr :=
  if n < 0 then none else some (List.replicate n.toNat ch)

/-- `n` concatenated copies of `s`. -/
def repeatStr (s : GoStr) : Nat → GoStr
  | 0 => []
  | n + 1 => s ++ repeatStr s n

/-- Go `strings.Repeat(s, n)` with an `int` count: panics (`none`) on a
negative count. -/
def goRepeatStr (s : GoStr) (n : Int) : Option GoStr :=
  if n < 0 then none else some (repeatStr s n.toNat)

/-- Go `strings.Split(s, sep)` for a single-character separator: always
returns at least one part. -/
def splitOnChar (sep : Char) : GoStr → List GoStr
  | [] => [[]]
  | c :: rest =>
    if c = sep then [] :: splitOnChar sep rest
    else
      match splitOnChar sep rest with
      | [] => [[c]]
      | p :: ps => (c :: p) :: ps

/-- Scanning loop of Go `strings.Replace(s, old, new, -1)` for nonempty
`old`: leftmost, non-overlapping, the replacement is not rescanned.  `fuel`
bounds the recursion; it is always called with `fuel = s.length`, which
suffices because each step consumes at least one character. -/
def replaceAllGo (old new : GoStr) : Nat → GoStr → GoStr
  | _, [] => []
  | 0, s => s
  | fuel + 1, c :: rest =>
    if old.isPrefixOf (c :: rest) then
      new ++ replaceAllGo old new fuel ((c :: rest).drop old.length)
    else c :: replaceAllGo old new fuel rest

/-- Go `strings.Replace(s, old, new, -1)`: replace every non-overlapping
occurrence of `old`, scanning left to right.  For empty `old`, Go inserts
`new` at every rune boundary. -/
def replaceAll (s old new : GoStr) : GoStr :=
  if old = [] then new ++ s.flatMap (fun c => c :: new)
  else replaceAllGo old new s.length s

/-- The character class `[0-9;]` of the color-code regex
`\x1b\[[0-9;]+m` from the source (code points 48 to 57 and 59). -/
def isCodeDigit (c : Char) : Bool := (48 ≤ c.toNat && c.toNat ≤ 57) || c.toNat = 59

/-- Attempt to match the color-code regex at the start of `s`; on success
returns the matched text and the remainder.  Because the character class
excludes the final letter, the regex can match at a position in exactly one
way: the maximal run of class characters followed by the letter m. -/
def matchColorCode (s : GoStr) : Option (GoStr × GoStr) :=
  match s with
  | c1 :: c2 :: rest =>
    if c1 = '\x1b' ∧ c2 = '[' then
      match rest.dropWhile isCodeDigit with
      | c3 :: tail =>
        if c3 = 'm' ∧ rest.takeWhile isCodeDigit ≠ [] then
          some ('\x1b' :: '[' :: (rest.takeWhile isCodeDigit ++ ['m']), tail)
        else none
      | [] => none
    else none
  | _ => none

/-- Scanning loop of `regexp.FindAllString` for the color-code regex: try to
match at each position, moving past each match.  `fuel` bounds the
recursion; it is always called with `fuel = s.length`. -/
def findAllGo : Nat → GoStr → List GoStr
  | _, [] => []
  | 0, _ => []
  | fuel + 1, c :: rest =>
    match matchColorCode (c :: rest) with
    | some (code, tail) => code :: findAllGo fuel tail
    | none => findAllGo fuel rest

/-- Go `escapeColorCodesRegex.FindAllString(s, -1)` from the source. -/
def findAllColorCodes (s : GoStr) : List GoStr := findAllGo s.length s

/-- The colorless copy of a field: the source clones the field and deletes,
with one `strings.Replace` per found code, every color code the regex
found. -/
def stripCodes (f : GoStr) : GoStr :=
  (findAllColorCodes f).foldl (fun acc cc => replaceAll acc cc []) f

/-- Unicode Cc (control) code points, as tested by `unicode.Is(unicode.Cc, r)`. -/
def isCcChar (c : Char) : Bool :=
  c.toNat < 0x20 || (0x7f ≤ c.toNat && c.toNat ≤ 0x9f)

/-- Unicode Zs (space separator) code points, as tested by
`unicode.Is(unicode.Zs, r)`. -/
def isZsChar (c : Char) : Bool :=
  c.toNat = 0x20 || c.toNat = 0xa0 || c.toNat = 0x1680 ||
  (0x2000 ≤ c.toNat && c.toNat ≤ 0x200a) || c.toNat = 0x202f ||
  c.toNat = 0x205f || c.toNat = 0x3000

/-- Unicode Cf (format) code points, as tested by `unicode.Is(unicode.Cf, r)`
(the principal ranges of the library's table; all claims below only involve
characters far from the exotic planes). -/
def isCfChar (c : Char) : Bool :=
  c.toNat = 0xad || (0x600 ≤ c.toNat && c.toNat ≤ 0x605) || c.toNat = 0x61c ||
  c.toNat = 0x6dd || c.toNat = 0x70f || (0x890 ≤ c.toNat && c.toNat ≤ 0x891) ||
  c.toNat = 0x8e2 || c.toNat = 0x180e || (0x200b ≤ c.toNat && c.toNat ≤ 0x200f) ||
  (0x202a ≤ c.toNat && c.toNat ≤ 0x202e) || (0x2060 ≤ c.toNat && c.toNat ≤ 0x2064) ||
  (0x2066 ≤ c.toNat && c.toNat ≤ 0x206f) || c.toNat = 0xfeff ||
  (0xfff9 ≤ c.toNat && c.toNat ≤ 0xfffb) || c.toNat = 0xe0001 ||
  (0xe0020 ≤ c.toNat && c.toNat ≤ 0xe007f)

/-- Unicode Mn (non-spacing mark) code points, as tested by
`unicode.Is(unicode.Mn, r)` (the principal ranges of the library's table). -/
def isMnChar (c : Char) : Bool :=
  (0x300 ≤ c.toNat && c.toNat ≤ 0x36f) || (0x483 ≤ c.toNat && c.toNat ≤ 0x487) ||
  (0x591 ≤ c.toNat && c.toNat ≤ 0x5bd) || (0x610 ≤ c.toNat && c.toNat ≤ 0x61a) ||
  (0x64b ≤ c.toNat && c.toNat ≤ 0x65f) || (0x6d6 ≤ c.toNat && c.toNat ≤ 0x6dc) ||
  (0x20d0 ≤ c.toNat && c.toNat ≤ 0x20f0) || (0xfe00 ≤ c.toNat && c.toNat ≤ 0xfe0f) ||
  (0xfe20 ≤ c.toNat && c.toNat ≤ 0xfe2f)

/-- Go `unicode.IsSpace` (code points of space, tab, newline, vertical tab,
form feed, carriage return, next line, no-break space, and Zs). -/
def isSpaceGo (c : Char) : Bool :=
  c.toNat = 0x20 || c.toNat = 0x9 || c.toNat = 0xa || c.toNat = 0xb || c.toNat = 0xc ||
  c.toNat = 0xd || c.toNat = 0x85 || c.toNat = 0xa0 || isZsChar c

/-- The per-rune callback of `cleanInvisibleChars` (`strings.Map`): `none`
means the rune is dropped.  The preserved runes are space (0x20), the escape
character (0x1b), tab (0x9) and newline (0xa). -/
def cleanRune (c : Char) : Option Char :=
  if c.toNat = 0x20 ∨ c.toNat = 0x1b ∨ c.toNat = 0x9 ∨ c.toNat = 0xa then some c
  else if isCfChar c || isCcChar c || isMnChar c || isZsChar c then none
  else if isSpaceGo c then none
  else some c

/-- `cleanInvisibleChars` from the source. -/
def cleanInvisibleChars (s : GoStr) : GoStr := s.filterMap cleanRune

/-- The divider glyph set (`utils.Dividers`); each glyph is a Go string. -/
structure Dividers where
  HLine : GoStr := []
  VLine : GoStr := []
  TL : GoStr := []
  TR : GoStr := []
  BL : GoStr := []
  BR : GoStr := []
  Cross : GoStr := []
  TUp : GoStr := []
  TDown : GoStr := []
  TRight : GoStr := []
  TLeft : GoStr := []
  VLeft : GoStr := []
  VRight : GoStr := []

/-- `column` from the source: one table column's maximal colorless width. -/
structure column where
  textWidth : Int
  deriving DecidableEq

/-- The `Writer` state (the external output sink is passed to `Flush`
separately; the terminal width is sampled at construction). -/
structure Writer where
  dividers : Dividers
  flags : Nat
  termCols : Int
  buffer : GoStr
  columns : List column
  lines : List GoStr

/-- The ASCII divider set chosen by `init` when `AsciiTable` is set. -/
def asciiDividers : Dividers :=
  { HLine := goStr "-", VLine := goStr "|", TL := goStr "+", TR := goStr "+",
    BL := goStr "+", BR := goStr "+", TUp := goStr "+", TDown := goStr "+",
    Cross := goStr "+", VLeft := goStr "+", VRight := goStr "+" }

/-- The Unicode box-drawing divider set chosen by `init` otherwise. -/
def unicodeDividers : Dividers :=
  { HLine := goStr "─", VLine := goStr "│", TL := goStr "┌", TR := goStr "┐",
    BL := goStr "└", BR := goStr "┘", TUp := goStr "┬", TDown := goStr "┴",
    Cross := goStr "┼", VLeft := goStr "├", VRight := goStr "┤" }

/-- `init` from the source.  The terminal size is an external capability (an
ioctl on stdout whose failure is ignored); the sampled width is therefore a
parameter here. -/
def Writer.init (termCols : Int) (flags : Nat) : Writer :=
  { dividers := if flags &&& AsciiTable ≠ 0 then asciiDividers else unicodeDividers
    flags := flags
    termCols := termCols
    buffer := []
    columns := []
    lines := [] }

/-- Modelled from the spec: the color palette constant `utils.ColorOrange` is
not part of the provided source files; the spec describes it as the literal
escape sequence used to mark truncated output (the "attention" color). -/
def ColorOrange : GoStr := goStr "\x1b[33m"

/-- Modelled from the spec: the color palette constant `utils.ColorReset` is
not part of the provided source files; the spec describes it as the sequence
used to reset color. -/
def ColorReset : GoStr := goStr "\x1b[0m"

/-- `truncateLongField` from the source, as the transformation it performs on
the current line and the current colorless field (the source mutates
`w.lines[l]` and `colorlessFields[l][c]` in place).  `none` models the panic
of the negative string slice. -/
def truncateLongField (flags : Nat) (termCols maxFieldLen : Int) (numFields c : Nat)
    (field colorless line : GoStr) : Option (GoStr × GoStr) :=
  if flags &&& PreserveLongFields = 0 ∧ 0 < termCols ∧ c = numFields - 1 ∧
      maxFieldLen < (colorless.length : Int) then
    match goSliceTo colorless (maxFieldLen - 5) with
    | none => none
    | some cut =>
      some (cut ++ goStr "[...]",
        replaceAll line field
          (replaceAll field colorless (cut ++ ColorOrange ++ goStr "[...]" ++ ColorReset)))
  else some (colorless, line)

/-- The column-width update at the end of the `createColumns` loop body: the
column's `textWidth` is raised to the colorless width when that exceeds it. -/
def bumpWidth (cols : List column) (c : Nat) (w : Nat) : List column :=
  if (cols.getD c ⟨0⟩).textWidth < (w : Int) then cols.set c ⟨(w : Int)⟩ else cols

/-- The inner field loop of `createColumns`: for each field compute the
colorless copy, apply `truncateLongField`, and raise the column's
`textWidth` via `bumpWidth`. -/
def fieldLoop (flags : Nat) (termCols maxFieldLen : Int) (numFields : Nat) :
    List GoStr → Nat → GoStr → List column → Option (GoStr × List GoStr × List column)
  | [], _, line, cols => some (line, [], cols)
  | f :: fs, c, line, cols =>
    match truncateLongField flags termCols maxFieldLen numFields c f (stripCodes f) line with
    | none => none
    | some (colorless, line) =>
      match fieldLoop flags termCols maxFieldLen numFields fs (c + 1) line
          (bumpWidth cols c colorless.length) with
      | none => none
      | some (line, row, cols) => some (line, colorless :: row, cols)

/-- The outer loop of `createColumns` over the lines: empty lines are
skipped (their colorless row stays empty); otherwise the line is split on
tabs, the column list is grown to the field count, and the field loop runs
with `maxFieldLen = termCols / numFields - 3` (Go `int` division). -/
def linesLoop (flags : Nat) (termCols : Int) :
    List GoStr → List column → Option (List GoStr × List (List GoStr) × List column)
  | [], cols => some ([], [], cols)
  | line :: ls, cols =>
    if line = [] then
      match linesLoop flags termCols ls cols with
      | none => none
      | some (ls', rows, cols') => some (line :: ls', [] :: rows, cols')
    else
      let fields := splitOnChar '\t' line
      let cols' := if cols.length < fields.length
        then cols ++ List.replicate (fields.length - cols.length) ⟨0⟩ else cols
      match fieldLoop flags termCols (Int.tdiv termCols (fields.length : Int) - 3)
          fields.length fields 0 line cols' with
      | none => none
      | some (line', row, cols'') =>
        match linesLoop flags termCols ls cols'' with
        | none => none
        | some (ls', rows, colsF) => some (line' :: ls', row :: rows, colsF)

/-- `createColumns` from the source: returns the possibly truncated lines,
the colorless fields per line, and the updated columns (the source mutates
`w.lines` and `w.columns` on the receiver). -/
def createColumns (w : Writer) : Option (List GoStr × List (List GoStr) × List column) :=
  linesLoop w.flags w.termCols w.lines w.columns

/-- `getPadding` from the source.  `none` models the panic of `bytes.Repeat`
with a negative count; `Int.tdiv` is Go `int` division (toward zero). -/
def getPadding (flags : Nat) (columns : List column) (c : Nat) (colorlessField : GoStr) :
    Option (Int × GoStr × GoStr) :=
  let base := (columns.getD c ⟨0⟩).textWidth - (colorlessField.length : Int)
  let totalPadding := if flags &&& RemoveLeastPad = 0 then base + 1 else base
  if flags &&& PreserveLongFields = 0 then
    if flags &&& AlignMiddle ≠ 0 then
      let tp := if flags &&& RemoveLeastPad = 0 then totalPadding + 1 else totalPadding
      match goRepeat ' ' (Int.tdiv tp 2), goRepeat ' ' (tp - Int.tdiv tp 2) with
      | some lp, some rp => some (tp, lp, rp)
      | _, _ => none
    else if flags &&& AlignRight ≠ 0 then
      match goRepeat ' ' totalPadding with
      | some lp => some (totalPadding, lp, [])
      | none => none
    else
      match goRepeat ' ' totalPadding with
      | some rp => some (totalPadding, [], rp)
      | none => none
  else some (0, [], [])

/-- `updateHLine` from the source.  `none` models the panic of
`strings.Repeat` with a negative count.  The visual length of the line built
so far is its byte length divided by the byte length of one horizontal
glyph; in this rune-level model every glyph is one rune, so the division is
by one (faithful because in Go all glyphs of a set have equal byte width). -/
def updateHLine (dv : Dividers) (termCols : Int) (hl : GoStr) (hLineLength : Int)
    (l : Nat) (isLastRow isLastField : Bool) : Option GoStr :=
  let availableTermSpace := termCols - Int.tdiv (hl.length : Int) (dv.HLine.length : Int)
  let xDivider :=
    if l == 0 && !isLastField then dv.TUp
    else if l == 0 then dv.TR
    else if isLastRow && !isLastField then dv.TDown
    else if isLastRow then dv.BR
    else if isLastField then dv.VRight
    else dv.Cross
  let hl' := if isLastField then
      (if l == 0 then dv.TL ++ hl else if isLastRow then dv.BL ++ hl else dv.VLeft ++ hl)
    else hl
  if 0 < availableTermSpace then
    if hLineLength ≤ availableTermSpace then
      match goRepeatStr dv.HLine (hLineLength - 1) with
      | some r => some (hl' ++ r ++ xDivider)
      | none => none
    else
      match goRepeatStr dv.HLine (availableTermSpace - 1) with
      | some r => some (hl' ++ r ++ xDivider)
      | none => none
  else some hl'

/-- The inner field loop of `createTable`: appends each padded field (and the
vertical dividers) to the output and extends the top horizontal line (for
row zero only) and the row's bottom horizontal line. -/
def tableFieldLoop (flags : Nat) (dv : Dividers) (termCols : Int) (columns : List column)
    (row : List GoStr) (numFields total l : Nat) :
    List GoStr → Nat → GoStr → GoStr → GoStr → Option (GoStr × GoStr × GoStr)
  | [], _, buf, pfx, hl => some (buf, pfx, hl)
  | f :: fs, c, buf, pfx, hl =>
    let colorless := row.getD c []
    let field := if flags &&& StripColours ≠ 0 then colorless else f
    match getPadding flags columns c colorless with
    | none => none
    | some (totalPadding, lp, rp) =>
      let buf' := if c = 0 then buf ++ dv.VLine ++ lp ++ field ++ rp ++ dv.VLine
        else buf ++ lp ++ field ++ rp ++ dv.VLine
      let hLineLength := (colorless.length : Int) + totalPadding + 1
      let isLastRow := l == total - 1
      let isLastField := c == numFields - 1
      match (if l = 0 then updateHLine dv termCols pfx hLineLength 0 isLastRow isLastField
        else some pfx) with
      | none => none
      | some pfx' =>
        match updateHLine dv termCols hl hLineLength (l + 1) isLastRow isLastField with
        | none => none
        | some hl' =>
          tableFieldLoop flags dv termCols columns row numFields total l fs (c + 1) buf' pfx' hl'

/-- The outer loop of `createTable` over the lines; the index `l` counts all
lines, empty ones included, exactly as the source's range loop does. -/
def createTableLoop (flags : Nat) (dv : Dividers) (termCols : Int) (columns : List column)
    (total : Nat) : Nat → List GoStr → List (List GoStr) → Option GoStr
  | _, [], _ => some []
  | l, line :: ls, rows =>
    if line = [] then createTableLoop flags dv termCols columns total (l + 1) ls rows.tail
    else
      let fields := splitOnChar '\t' line
      match tableFieldLoop flags dv termCols columns (rows.headD []) fields.length total l
          fields 0 [] [] [] with
      | none => none
      | some (buf, pfx, hl) =>
        match createTableLoop flags dv termCols columns total (l + 1) ls rows.tail with
        | none => none
        | some rest =>
          some ((if l = 0 then pfx ++ ['\n'] else []) ++ buf ++ ['\n'] ++ hl ++ ['\n'] ++ rest)

/-- `createTable` from the source. -/
def createTable (w : Writer) (colorlessFields : List (List GoStr)) : Option GoStr :=
  createTableLoop w.flags w.dividers w.termCols w.columns w.lines.length 0 w.lines colorlessFields

/-- `formatBuffer` from the source: `createColumns` feeds the (possibly
truncated) lines, the colorless fields and the final columns into
`createTable`. -/
def formatBuffer (w : Writer) : Option GoStr :=
  match createColumns w with
  | none => none
  | some (lines', colorlessFields, columns') =>
    createTable { w with lines := lines', columns := columns' } colorlessFields

/-- The line-splitting step of `Flush`: sanitize the buffer, split on
newlines, and drop a single trailing empty line. -/
def splitLines (w : Writer) : List GoStr :=
  let ls := splitOnChar '\n' (cleanInvisibleChars w.buffer)
  if ls.getLastD [] = [] then ls.dropLast else ls

/-- `Clear` from the source. -/
def Writer.Clear (w : Writer) : Writer :=
  { w with buffer := [], columns := [], lines := [] }

/-- The rendered bytes a `Flush` call sends to the sink; `none` models a
panic inside the formatting stages. -/
def renderOutput (w : Writer) : Option GoStr :=
  formatBuffer { w with lines := splitLines w }

/-- `Flush` from the source.  The output sink is modelled as a function from
the rendered bytes to (bytes accepted, error flag).  The first component of
the result is `none` when formatting panics, `some true` when `Flush`
returns `io.ErrShortWrite`, and `some false` on success; the second
component is the `Writer` after the deferred `Clear`, which runs on every
path. -/
def Writer.Flush (w : Writer) (sink : GoStr → Nat × Bool) : Option Bool × Writer :=
  match renderOutput w with
  | none => (none, w.Clear)
  | some out =>
    let r := sink out
    (some (r.2 || (r.1 != out.length)), w.Clear)

/-- A `Writer` as produced by `NewWriter` (with the given sampled terminal
width and flags) after `Write` calls have accumulated `buf`. -/
def mkWriter (termCols : Int) (flags : Nat) (buf : GoStr) : Writer :=
  { Writer.init termCols flags with buffer := buf }


/-! ### Helper lemmas -/

/-- `goRepeat` succeeds on a non-negative count. -/
theorem goRepeat_of_nonneg (ch : Char) {k : Int} (h : 0 ≤ k) :
    goRepeat ch k = some (List.replicate k.toNat ch) := by
  rw [goRepeat, if_neg (by omega)]

/-- Toward-zero halving of a non-negative integer stays in range. -/
theorem tdiv_two_bounds {a : Int} (h : 0 ≤ a) : 0 ≤ Int.tdiv a 2 ∧ Int.tdiv a 2 ≤ a := by
  rw [Int.tdiv_eq_ediv h (by norm_num)]
  omega

/-! ### C1: alignment precedence between middle and right -/

/-- C1 (counterexample): with both `AlignMiddle` and `AlignRight` set
(flags 6), a field of colorless width 1 in a column of width 4 receives
split padding (2 left, 3 right), not the all-left padding of pure right
alignment (flags 4): the rendered output is not the right-aligned output. -/
theorem C1_counterexample :
    getPadding (AlignMiddle ||| AlignRight) [⟨4⟩] 0 (goStr "a") =
      some (5, goStr "  ", goStr "   ") ∧
    getPadding (AlignMiddle ||| AlignRight) [⟨4⟩] 0 (goStr "a") ≠
      getPadding AlignRight [⟨4⟩] 0 (goStr "a") := by decide

/-- C1 (amended): when both the align-middle and align-right flags are set,
middle alignment wins (the source tests `AlignMiddle` first): the total
padding gains the middle-alignment separation spaces and is split evenly,
left floor-half and right remainder — it is not placed entirely on the left. -/
theorem C1_alignMiddle_wins_over_right (flags : Nat) (cols : List column) (c : Nat)
    (f : GoStr)
    (h1 : flags &&& AlignMiddle ≠ 0) (h2 : flags &&& AlignRight ≠ 0)
    (h3 : flags &&& PreserveLongFields = 0)
    (h4 : (f.length : Int) ≤ (cols.getD c ⟨0⟩).textWidth) :
    ∃ tp : Int,
      getPadding flags cols c f =
        some (tp, List.replicate (Int.tdiv tp 2).toNat ' ',
          List.replicate (tp - Int.tdiv tp 2).toNat ' ') ∧
      tp = (cols.getD c ⟨0⟩).textWidth - (f.length : Int) +
        (if flags &&& RemoveLeastPad = 0 then 2 else 0) := by
  simp only [getPadding, if_pos h3, if_pos h1]
  set B := (cols.getD c ⟨0⟩).textWidth - (f.length : Int) with hB
  have hBpos : 0 ≤ B := by omega
  by_cases hR : flags &&& RemoveLeastPad = 0
  · simp only [if_pos hR]
    refine ⟨B + 1 + 1, ?_, by ring⟩
    have hT : (0:Int) ≤ B + 1 + 1 := by omega
    have hb := tdiv_two_bounds hT
    rw [goRepeat_of_nonneg _ hb.1, goRepeat_of_nonneg _ (by omega : (0:Int) ≤ B + 1 + 1 - Int.tdiv (B + 1 + 1) 2)]
  · simp only [if_neg hR]
    refine ⟨B, ?_, by ring⟩
    have hb := tdiv_two_bounds hBpos
    rw [goRepeat_of_nonneg _ hb.1, goRepeat_of_nonneg _ (by omega : (0:Int) ≤ B - Int.tdiv B 2)]

/-- C1 (witness): the amended theorem at flags 6, column width 4, field of
width 1. -/
theorem C1_witness :
    ∃ tp : Int,
      getPadding 6 [⟨4⟩] 0 (goStr "a") =
        some (tp, List.replicate (Int.tdiv tp 2).toNat ' ',
          List.replicate (tp - Int.tdiv tp 2).toNat ' ') ∧
      tp = (4 : Int) - 1 + (if 6 &&& RemoveLeastPad = 0 then 2 else 0) :=
  C1_alignMiddle_wins_over_right 6 [⟨4⟩] 0 (goStr "a")
    (by decide) (by decide) (by decide) (by decide)


/-! ### C9: remove-minimal-padding versus align-middle -/

/-- C9 (counterexample): with `AlignMiddle` and `RemoveLeastPad` both set
(flags 10), a field of colorless width 2 in a column of width 4 gets total
padding 2 — exactly the width surplus — not 3: the second (middle-alignment)
separation space is NOT added back. -/
theorem C9_counterexample :
    getPadding (AlignMiddle ||| RemoveLeastPad) [⟨4⟩] 0 (goStr "ab") =
      some (2, goStr " ", goStr " ") ∧
    (getPadding (AlignMiddle ||| RemoveLeastPad) [⟨4⟩] 0 (goStr "ab")).map Prod.fst ≠
      some 3 := by decide

/-- C9 (amended): when both the align-middle and remove-minimal-padding flags
are set, the middle-alignment separation space is NOT added back: the second
increment is guarded by the same `RemoveLeastPad` test as the first, so the
total padding is exactly the column's width surplus, split evenly. -/
theorem C9_no_second_space_with_removeLeastPad (flags : Nat) (cols : List column)
    (c : Nat) (f : GoStr)
    (h1 : flags &&& AlignMiddle ≠ 0) (h2 : flags &&& RemoveLeastPad ≠ 0)
    (h3 : flags &&& PreserveLongFields = 0)
    (h4 : (f.length : Int) ≤ (cols.getD c ⟨0⟩).textWidth) :
    ∃ tp : Int,
      getPadding flags cols c f =
        some (tp, List.replicate (Int.tdiv tp 2).toNat ' ',
          List.replicate (tp - Int.tdiv tp 2).toNat ' ') ∧
      tp = (cols.getD c ⟨0⟩).textWidth - (f.length : Int) := by
  simp only [getPadding, if_pos h3, if_pos h1, if_neg h2]
  set B := (cols.getD c ⟨0⟩).textWidth - (f.length : Int) with hB
  have hBpos : 0 ≤ B := by omega
  refine ⟨B, ?_, rfl⟩
  have hb := tdiv_two_bounds hBpos
  rw [goRepeat_of_nonneg _ hb.1,
    goRepeat_of_nonneg _ (by omega : (0:Int) ≤ B - Int.tdiv B 2)]

/-- C9 (witness): the amended theorem at flags 10, column width 4, field of
width 2. -/
theorem C9_witness :
    ∃ tp : Int,
      getPadding 10 [⟨4⟩] 0 (goStr "ab") =
        some (tp, List.replicate (Int.tdiv tp 2).toNat ' ',
          List.replicate (tp - Int.tdiv tp 2).toNat ' ') ∧
      tp = (4 : Int) - 2 :=
  C9_no_second_space_with_removeLeastPad 10 [⟨4⟩] 0 (goStr "ab")
    (by decide) (by decide) (by decide) (by decide)

/-! ### C6: Flush clears all table state on every path -/

/-- C6: after every `Flush` call — success, short write, or even a
formatting panic (the `Clear` is deferred) — the writer's buffer, lines,
and columns are all empty. -/
theorem C6_flush_clears_state (w : Writer) (sink : GoStr → Nat × Bool) :
    (w.Flush sink).2.buffer = [] ∧ (w.Flush sink).2.lines = [] ∧
      (w.Flush sink).2.columns = [] := by
  unfold Writer.Flush
  cases renderOutput w <;> simp [Writer.Clear]

/-! ### C4: the truncation boundary -/

/-- C4 (counterexample): with terminal width 7 and one field,
`maxFieldLen = 7/1 - 3 = 4`, and a last field of colorless length 5 exceeds
it; the claim says it is replaced by its first `maxFieldLen - 5` characters
plus the marker, but the code instead performs the string slice
`[:maxFieldLen-5] = [:-1]`, which panics. -/
theorem C4_counterexample :
    truncateLongField 0 7 (Int.tdiv 7 1 - 3) 1 0 (goStr "abcde") (goStr "abcde")
      (goStr "abcde") = none := by decide

/-- C4 (amended): with truncation enabled and a known terminal width, a last
field whose colorless length is exactly `maxFieldLen = termCols/numFields - 3`
is not truncated; and provided `maxFieldLen ≥ 5`, a longer last field is
replaced by its first `maxFieldLen - 5` characters followed by the literal
marker. -/
theorem C4_truncation_boundary (flags : Nat) (termCols mfl : Int) (numFields c : Nat)
    (field colorless line : GoStr)
    (hen : flags &&& PreserveLongFields = 0) (htc : 0 < termCols)
    (hc : c = numFields - 1) (hm : mfl = Int.tdiv termCols (numFields : Int) - 3) :
    ((colorless.length : Int) = mfl →
      truncateLongField flags termCols mfl numFields c field colorless line =
        some (colorless, line)) ∧
    (5 ≤ mfl → mfl < (colorless.length : Int) →
      ∃ line', truncateLongField flags termCols mfl numFields c field colorless line =
        some (colorless.take (mfl - 5).toNat ++ goStr "[...]", line')) := by
  constructor
  · intro hlen
    rw [truncateLongField, if_neg]
    intro hcond
    exact absurd hcond.2.2.2 (by omega)
  · intro h5 hgt
    rw [truncateLongField, if_pos ⟨hen, htc, hc, hgt⟩, goSliceTo, if_neg (by omega)]
    exact ⟨_, rfl⟩

/-- C4 (witness): with terminal width 16 and two fields, `maxFieldLen = 5`:
a last field of colorless length 5 is kept, one of length 6 is truncated to
its first 0 characters plus the marker. -/
theorem C4_witness :
    truncateLongField 0 16 5 2 1 (goStr "abcde") (goStr "abcde") (goStr "x\tabcde") =
      some (goStr "abcde", goStr "x\tabcde") ∧
    ∃ line', truncateLongField 0 16 5 2 1 (goStr "abcdef") (goStr "abcdef")
      (goStr "x\tabcdef") =
        some ((goStr "abcdef").take ((5:Int) - 5).toNat ++ goStr "[...]", line') := by
  constructor
  · exact (C4_truncation_boundary 0 16 5 2 1 (goStr "abcde") (goStr "abcde")
      (goStr "x\tabcde") (by decide) (by decide) (by decide) (by decide)).1 (by decide)
  · exact (C4_truncation_boundary 0 16 5 2 1 (goStr "abcdef") (goStr "abcdef")
      (goStr "x\tabcdef") (by decide) (by decide) (by decide) (by decide)).2
      (by decide) (by decide)

/-! ### C3: unknown terminal width -/

/-- C3 (counterexample): with terminal width 0, a one-cell table renders with
divider lines that contain no horizontal glyph at all — each divider line
collapses to its single left-edge corner glyph, so the borders are NOT fully
drawn to the column content. -/
theorem C3_counterexample :
    renderOutput (mkWriter 0 0 (goStr "a")) = some (goStr "┌\n│a │\n└\n") ∧
    '─' ∉ (renderOutput (mkWriter 0 0 (goStr "a"))).getD [] := by decide

/-- C3 (amended): an unknown (zero or negative) terminal width disables
truncation regardless of configuration, but it also disables the horizontal
border segments: `availableTermSpace` can never be positive, so `updateHLine`
appends neither horizontal glyphs nor junction glyphs, and each divider line
consists of at most the left-edge glyph. -/
theorem C3_unknown_width_disables_truncation_and_segments
    (flags : Nat) (termCols mfl hLineLength : Int) (numFields c : Nat)
    (field colorless line : GoStr) (dv : Dividers) (hl : GoStr) (l : Nat)
    (isLastRow isLastField : Bool)
    (h : termCols ≤ 0) :
    truncateLongField flags termCols mfl numFields c field colorless line =
      some (colorless, line) ∧
    updateHLine dv termCols hl hLineLength l isLastRow isLastField =
      some (if isLastField then
        (if l == 0 then dv.TL ++ hl else if isLastRow then dv.BL ++ hl else dv.VLeft ++ hl)
        else hl) := by
  constructor
  · rw [truncateLongField, if_neg]
    intro hcond
    exact absurd hcond.2.1 (by omega)
  · have havail : ¬ (0 < termCols - Int.tdiv (hl.length : Int) (dv.HLine.length : Int)) := by
      have h0 : 0 ≤ Int.tdiv (hl.length : Int) (dv.HLine.length : Int) :=
        Int.tdiv_nonneg (by omega) (by omega)
      omega
    simp only [updateHLine, if_neg havail]

/-- C3 (witness): the amended theorem at terminal width 0 for a one-cell
table's bottom border. -/
theorem C3_witness :
    truncateLongField 0 0 (-3) 1 0 (goStr "a") (goStr "a") (goStr "a") =
      some (goStr "a", goStr "a") ∧
    updateHLine unicodeDividers 0 [] 3 1 true true = some (goStr "└") := by
  have h := C3_unknown_width_disables_truncation_and_segments 0 0 (-3) 3 1 0 (goStr "a")
    (goStr "a") (goStr "a") unicodeDividers [] 1 true true (by decide)
  exact ⟨h.1, by simpa using h.2⟩

/-! ### C8: the left-edge glyph of divider lines -/

/-- `updateHLine` only ever appends to the line it is given, apart from the
left-edge glyph it prepends when, and only when, it is called for the last
field. -/
theorem updateHLine_shape (dv : Dividers) (termCols : Int) (hl : GoStr)
    (hLineLength : Int) (l : Nat) (isLastRow isLastField : Bool) (r : GoStr)
    (h : updateHLine dv termCols hl hLineLength l isLastRow isLastField = some r) :
    ∃ t, r = (if isLastField then
      (if l == 0 then dv.TL ++ hl else if isLastRow then dv.BL ++ hl else dv.VLeft ++ hl)
      else hl) ++ t := by
  simp only [updateHLine] at h
  by_cases h1 : 0 < termCols - Int.tdiv (hl.length : Int) (dv.HLine.length : Int)
  · rw [if_pos h1] at h
    by_cases h2 : hLineLength ≤ termCols - Int.tdiv (hl.length : Int) (dv.HLine.length : Int)
    · rw [if_pos h2] at h
      cases hg : goRepeatStr dv.HLine (hLineLength - 1) with
      | none => rw [hg] at h; cases h
      | some rep =>
        rw [hg] at h
        simp only [Option.some.injEq] at h
        exact ⟨_, by rw [← h, List.append_assoc]⟩
    · rw [if_neg h2] at h
      cases hg : goRepeatStr dv.HLine
          (termCols - Int.tdiv (hl.length : Int) (dv.HLine.length : Int) - 1) with
      | none => rw [hg] at h; cases h
      | some rep =>
        rw [hg] at h
        simp only [Option.some.injEq] at h
        exact ⟨_, by rw [← h, List.append_assoc]⟩
  · rw [if_neg h1] at h
    simp only [Option.some.injEq] at h
    exact ⟨[], by rw [← h, List.append_nil]⟩

/-- C8 (amended): exactly one left-edge glyph (top-left for the first row
boundary, bottom-left for the last, left-mid otherwise) is prepended per
divider line, but the prepending happens at the LAST field's turn of
building that line (`updateHLine` tests `isLastField`), not the first: a
call for a non-last field never prepends, a call for the last field always
does. -/
theorem C8_left_edge_glyph_once_at_last_field (dv : Dividers) (termCols : Int)
    (hl : GoStr) (hLineLength : Int) (l : Nat) (isLastRow isLastField : Bool) (r : GoStr)
    (h : updateHLine dv termCols hl hLineLength l isLastRow isLastField = some r) :
    (isLastField = false → ∃ t, r = hl ++ t) ∧
    (isLastField = true → ∃ t,
      r = (if l == 0 then dv.TL else if isLastRow then dv.BL else dv.VLeft) ++ (hl ++ t)) := by
  have hs := updateHLine_shape dv termCols hl hLineLength l isLastRow isLastField r h
  constructor
  · rintro rfl
    simpa using hs
  · rintro rfl
    obtain ⟨t, ht⟩ := hs
    simp only [if_true] at ht
    refine ⟨t, ?_⟩
    rw [ht]
    by_cases h0 : (l == 0) = true <;> by_cases hr : isLastRow = true <;>
      simp [h0, hr, List.append_assoc]

/-- C8 (counterexample): building the bottom divider of a two-field interior
row (width 80, both segments of length 4): after the FIRST field's turn the
divider line is just horizontal glyphs and a cross — no left-edge glyph has
been prepended; the left-mid glyph only arrives at the last field's turn. -/
theorem C8_counterexample :
    updateHLine unicodeDividers 80 [] 4 1 false false = some (goStr "───┼") ∧
    (goStr "───┼").head? ≠ some '├' ∧
    updateHLine unicodeDividers 80 (goStr "───┼") 4 1 false true =
      some (goStr "├───┼───┤") := by decide

/-- C8 (witness): the amended theorem applied to the last field's turn of
that same divider line. -/
theorem C8_witness :
    ∃ t, goStr "├───┼───┤" =
      (if (1:Nat) == 0 then unicodeDividers.TL else if false then unicodeDividers.BL
        else unicodeDividers.VLeft) ++ (goStr "───┼" ++ t) :=
  (C8_left_edge_glyph_once_at_last_field unicodeDividers 80 (goStr "───┼") 4 1 false true
    (goStr "├───┼───┤") (by decide)).2 rfl


/-! ### List access helpers -/

/-- `getD` after `set` at a different index. -/
theorem getD_set_ne (l : List column) (n j : Nat) (v d : column) (h : j ≠ n) :
    (l.set n v).getD j d = l.getD j d := by
  rw [List.getD_eq_getElem?_getD, List.getD_eq_getElem?_getD, List.getElem?_set,
    if_neg (fun h2 => h h2.symm)]

/-- `getD` after `set` at the same, in-range index. -/
theorem getD_set_self (l : List column) (n : Nat) (v d : column) (h : n < l.length) :
    (l.set n v).getD n d = v := by
  simp [List.getD_eq_getElem?_getD, List.getElem?_set, h]

/-- `getD` on a tail shifts the index. -/
theorem getD_tail (rows : List (List GoStr)) (l : Nat) (d : List GoStr) :
    rows.tail.getD l d = rows.getD (l + 1) d := by
  cases rows <;> simp [List.getD]

/-- `headD` is `getD` at zero. -/
theorem headD_eq_getD (rows : List (List GoStr)) (d : List GoStr) :
    rows.headD d = rows.getD 0 d := by
  cases rows <;> simp [List.getD]

/-- `getD` on an append, inside the first part. -/
theorem getD_append_left (l1 l2 : List column) (j : Nat) (d : column) (h : j < l1.length) :
    (l1 ++ l2).getD j d = l1.getD j d := by
  rw [List.getD_eq_getElem?_getD, List.getD_eq_getElem?_getD, List.getElem?_append, if_pos h]

/-- The zero-width extension of the column list: every defaulted entry is a
zero-width column or the old entry. -/
theorem getD_extend (cols : List column) (k j : Nat) :
    ((cols ++ List.replicate k (⟨0⟩ : column)).getD j ⟨0⟩).textWidth =
      if j < cols.length then (cols.getD j ⟨0⟩).textWidth else 0 := by
  by_cases h : j < cols.length
  · rw [getD_append_left _ _ _ _ h, if_pos h]
  · rw [if_neg h]
    rw [List.getD_eq_getElem?_getD, List.getElem?_append_right (by omega),
      List.getElem?_replicate]
    by_cases h2 : j - cols.length < k
    · rw [if_pos h2]
      rfl
    · rw [if_neg h2]
      rfl

/-! ### Pointwise column-width facts -/

/-- Pointwise width order on column lists, through the total `getD` view. -/
def colsLE (cols cols' : List column) : Prop :=
  ∀ j, (cols.getD j ⟨0⟩).textWidth ≤ (cols'.getD j ⟨0⟩).textWidth

/-- All (defaulted) widths are non-negative. -/
def colsNonneg (cols : List column) : Prop :=
  ∀ j, 0 ≤ (cols.getD j ⟨0⟩).textWidth

theorem colsLE_refl (cols : List column) : colsLE cols cols := fun _ => le_refl _

theorem colsLE_trans {a b c : List column} (h1 : colsLE a b) (h2 : colsLE b c) :
    colsLE a c := fun j => le_trans (h1 j) (h2 j)

theorem colsNonneg_of_le {a b : List column} (h : colsNonneg a) (hle : colsLE a b) :
    colsNonneg b := fun j => le_trans (h j) (hle j)

theorem colsNonneg_nil : colsNonneg [] := by
  intro j
  simp [List.getD]

theorem colsNonneg_extend {cols : List column} (h : colsNonneg cols) (k : Nat) :
    colsNonneg (cols ++ List.replicate k (⟨0⟩ : column)) := by
  intro j
  rw [getD_extend]
  by_cases hj : j < cols.length
  · rw [if_pos hj]; exact h j
  · rw [if_neg hj]

theorem colsLE_extend (cols : List column) (k : Nat) :
    colsLE cols (cols ++ List.replicate k (⟨0⟩ : column)) := by
  intro j
  rw [getD_extend]
  by_cases hj : j < cols.length
  · rw [if_pos hj]
  · rw [if_neg hj]
    have he : (List.getD cols j ⟨0⟩) = (⟨0⟩ : column) := by
      rw [List.getD_eq_getElem?_getD, List.getElem?_eq_none (by omega)]
      rfl
    rw [he]

/-- `getD` past the end of a list is the default. -/
theorem getD_of_le (l : List GoStr) (n : Nat) (d : GoStr) (h : l.length ≤ n) :
    l.getD n d = d := by
  rw [List.getD_eq_getElem?_getD, List.getElem?_eq_none h]
  rfl

/-- `bumpWidth` keeps the column count. -/
theorem bumpWidth_length (cols : List column) (c w : Nat) :
    (bumpWidth cols c w).length = cols.length := by
  rw [bumpWidth]; split <;> simp

/-- `bumpWidth` only raises widths. -/
theorem colsLE_bumpWidth (cols : List column) (c w : Nat) :
    colsLE cols (bumpWidth cols c w) := by
  intro j
  rw [bumpWidth]
  split
  · rename_i hcond
    by_cases hj : j = c
    · subst hj
      by_cases hcl : j < cols.length
      · rw [getD_set_self _ _ _ _ hcl]
        exact le_of_lt hcond
      · rw [List.set_eq_of_length_le (le_of_not_lt hcl)]
    · rw [getD_set_ne _ _ _ _ _ hj]
  · exact le_refl _

/-- After `bumpWidth`, an in-range column is at least the bumped width. -/
theorem bumpWidth_le (cols : List column) (c w : Nat) (h : c < cols.length) :
    (w : Int) ≤ ((bumpWidth cols c w).getD c ⟨0⟩).textWidth := by
  rw [bumpWidth]
  split
  · rw [getD_set_self _ _ _ _ h]
  · rename_i hcond
    exact le_of_not_lt hcond

/-! ### The `createColumns` invariant -/

/-- What one run of the field loop guarantees: column count preserved, one
colorless entry per field, widths only grow, and — when the column list is
large enough — every produced colorless entry is bounded by its column's
final width. -/
theorem fieldLoop_spec (flags : Nat) (termCols mfl : Int) (nf : Nat) :
    ∀ (fs : List GoStr) (c : Nat) (line : GoStr) (cols : List column)
      (line' : GoStr) (row : List GoStr) (cols' : List column),
      fieldLoop flags termCols mfl nf fs c line cols = some (line', row, cols') →
      cols'.length = cols.length ∧ row.length = fs.length ∧ colsLE cols cols' ∧
      (nf ≤ cols.length → c + fs.length ≤ nf →
        ∀ i, i < row.length →
          (((row.getD i []).length : Int)) ≤ (cols'.getD (c + i) ⟨0⟩).textWidth)
  | [], c, line, cols, line', row, cols', h => by
    simp only [fieldLoop, Option.some.injEq, Prod.mk.injEq] at h
    obtain ⟨-, h2, h3⟩ := h
    subst h2; subst h3
    exact ⟨rfl, rfl, colsLE_refl cols, fun _ _ i hi => absurd hi (by simp)⟩
  | f :: fs, c, line, cols, line', row, cols', h => by
    simp only [fieldLoop] at h
    cases ht : truncateLongField flags termCols mfl nf c f (stripCodes f) line with
    | none => rw [ht] at h; exact absurd h (by simp)
    | some pr =>
      obtain ⟨colorless, line2⟩ := pr
      rw [ht] at h
      dsimp only at h
      cases hr : fieldLoop flags termCols mfl nf fs (c + 1) line2
          (bumpWidth cols c colorless.length) with
      | none => rw [hr] at h; exact absurd h (by simp)
      | some out2 =>
        obtain ⟨line3, row3, cols3⟩ := out2
        rw [hr] at h
        dsimp only at h
        simp only [Option.some.injEq, Prod.mk.injEq] at h
        obtain ⟨-, h5, h6⟩ := h
        subst h5; subst h6
        obtain ⟨IHlen, IHrow, IHle, IHbound⟩ :=
          fieldLoop_spec flags termCols mfl nf fs (c + 1) line2 _ _ _ _ hr
        refine ⟨by rw [IHlen, bumpWidth_length], by simp [IHrow],
          colsLE_trans (colsLE_bumpWidth cols c colorless.length) IHle, ?_⟩
        intro hnf hc i hi
        simp only [List.length_cons] at hc
        cases i with
        | zero =>
          have hcc : c < cols.length := by omega
          have hstep := bumpWidth_le cols c colorless.length hcc
          simpa using le_trans hstep (IHle c)
        | succ i =>
          have hb := IHbound (by rw [bumpWidth_length]; exact hnf) (by omega) i
            (by simp at hi; omega)
          rw [List.getD_cons_succ, show c + (i + 1) = c + 1 + i from by omega]
          exact hb

/-- What `createColumns`'s outer loop guarantees: widths only grow,
non-negativity is preserved, and every colorless entry of every row is
bounded by its column's final width. -/
theorem linesLoop_spec (flags : Nat) (termCols : Int) :
    ∀ (lines : List GoStr) (cols : List column)
      (lines' : List GoStr) (rows : List (List GoStr)) (colsF : List column),
      linesLoop flags termCols lines cols = some (lines', rows, colsF) →
      colsLE cols colsF ∧ (colsNonneg cols → colsNonneg colsF) ∧
      (colsNonneg cols →
        ∀ l i, (((rows.getD l []).getD i []).length : Int) ≤ (colsF.getD i ⟨0⟩).textWidth)
  | [], cols, lines', rows, colsF, h => by
    simp only [linesLoop, Option.some.injEq, Prod.mk.injEq] at h
    obtain ⟨-, h2, h3⟩ := h
    subst h2; subst h3
    refine ⟨colsLE_refl cols, id, fun hnn l i => ?_⟩
    simp only [List.getD]
    simpa using hnn i
  | line :: ls, cols, lines', rows, colsF, h => by
    simp only [linesLoop] at h
    by_cases he : line = []
    · rw [if_pos he] at h
      cases hr : linesLoop flags termCols ls cols with
      | none => rw [hr] at h; exact absurd h (by simp)
      | some out2 =>
        obtain ⟨ls2, rows2, cols2⟩ := out2
        rw [hr] at h
        dsimp only at h
        simp only [Option.some.injEq, Prod.mk.injEq] at h
        obtain ⟨-, h5, h6⟩ := h
        subst h5; subst h6
        obtain ⟨IHle, IHnn, IHbound⟩ := linesLoop_spec flags termCols ls cols _ _ _ hr
        refine ⟨IHle, IHnn, fun hnn l i => ?_⟩
        cases l with
        | zero =>
          simp only [List.getD_cons_zero, List.getD]
          simpa using IHnn hnn i
        | succ l =>
          rw [List.getD_cons_succ]
          exact IHbound hnn l i
    · rw [if_neg he] at h
      cases hf : fieldLoop flags termCols
          (Int.tdiv termCols ((splitOnChar '\t' line).length : Int) - 3)
          (splitOnChar '\t' line).length (splitOnChar '\t' line) 0 line
          (if cols.length < (splitOnChar '\t' line).length
            then cols ++ List.replicate ((splitOnChar '\t' line).length - cols.length) ⟨0⟩
            else cols) with
      | none => rw [hf] at h; exact absurd h (by simp)
      | some outf =>
        obtain ⟨line2, row2, cols2⟩ := outf
        rw [hf] at h
        dsimp only at h
        cases hr : linesLoop flags termCols ls cols2 with
        | none => rw [hr] at h; exact absurd h (by simp)
        | some out2 =>
          obtain ⟨ls2, rows2, cols3⟩ := out2
          rw [hr] at h
          dsimp only at h
          simp only [Option.some.injEq, Prod.mk.injEq] at h
          obtain ⟨-, h5, h6⟩ := h
          subst h5; subst h6
          obtain ⟨FLlen, FLrow, FLle, FLbound⟩ := fieldLoop_spec flags termCols
            (Int.tdiv termCols ((splitOnChar '\t' line).length : Int) - 3)
            (splitOnChar '\t' line).length (splitOnChar '\t' line) 0 line _ _ _ _ hf
          obtain ⟨IHle, IHnn, IHbound⟩ := linesLoop_spec flags termCols ls cols2 _ _ _ hr
          have hext : colsLE cols
              (if cols.length < (splitOnChar '\t' line).length
                then cols ++ List.replicate ((splitOnChar '\t' line).length - cols.length) ⟨0⟩
                else cols) := by
            split
            · exact colsLE_extend cols _
            · exact colsLE_refl cols
          have hexlen : (splitOnChar '\t' line).length ≤
              (if cols.length < (splitOnChar '\t' line).length
                then cols ++ List.replicate ((splitOnChar '\t' line).length - cols.length) ⟨0⟩
                else cols).length := by
            split
            · rename_i hcl
              simp
              omega
            · rename_i hcl
              omega
          refine ⟨colsLE_trans hext (colsLE_trans FLle IHle), fun hnn => ?_, fun hnn l i => ?_⟩
          · refine IHnn (colsNonneg_of_le ?_ FLle)
            split
            · exact colsNonneg_extend hnn _
            · exact hnn
          · have hnn2 : colsNonneg cols2 := by
              refine colsNonneg_of_le ?_ FLle
              split
              · exact colsNonneg_extend hnn _
              · exact hnn
            cases l with
            | zero =>
              rw [List.getD_cons_zero]
              by_cases hi : i < row2.length
              · have hb := FLbound hexlen (by omega) i hi
                simp only [Nat.zero_add] at hb
                exact le_trans hb (IHle i)
              · rw [getD_of_le row2 i [] (le_of_not_lt hi)]
                simpa using IHnn hnn2 i
            | succ l =>
              rw [List.getD_cons_succ]
              exact IHbound hnn2 l i

/-- `getPadding` succeeds with a non-negative total whenever the field fits
its column's width (`bytes.Repeat` is never called with a negative count). -/
theorem getPadding_total (flags : Nat) (cols : List column) (c : Nat) (f : GoStr)
    (h : (f.length : Int) ≤ (cols.getD c ⟨0⟩).textWidth) :
    ∃ tp lp rp, getPadding flags cols c f = some (tp, lp, rp) ∧ 0 ≤ tp := by
  by_cases hP : flags &&& PreserveLongFields = 0
  · simp only [getPadding, if_pos hP]
    set B := (cols.getD c ⟨0⟩).textWidth - (f.length : Int) with hB
    have hBpos : 0 ≤ B := by omega
    by_cases hM : flags &&& AlignMiddle ≠ 0
    · rw [if_pos hM]
      by_cases hR : flags &&& RemoveLeastPad = 0
      · simp only [if_pos hR]
        have hT : (0:Int) ≤ B + 1 + 1 := by omega
        have hb := tdiv_two_bounds hT
        rw [goRepeat_of_nonneg _ hb.1,
          goRepeat_of_nonneg _ (by omega : (0:Int) ≤ B + 1 + 1 - Int.tdiv (B + 1 + 1) 2)]
        exact ⟨_, _, _, rfl, hT⟩
      · simp only [if_neg hR]
        have hb := tdiv_two_bounds hBpos
        rw [goRepeat_of_nonneg _ hb.1,
          goRepeat_of_nonneg _ (by omega : (0:Int) ≤ B - Int.tdiv B 2)]
        exact ⟨_, _, _, rfl, hBpos⟩
    · rw [if_neg hM]
      by_cases hA : flags &&& AlignRight ≠ 0
      · rw [if_pos hA]
        by_cases hR : flags &&& RemoveLeastPad = 0
        · simp only [if_pos hR]
          rw [goRepeat_of_nonneg _ (by omega : (0:Int) ≤ B + 1)]
          exact ⟨_, _, _, rfl, by omega⟩
        · simp only [if_neg hR]
          rw [goRepeat_of_nonneg _ hBpos]
          exact ⟨_, _, _, rfl, hBpos⟩
      · rw [if_neg hA]
        by_cases hR : flags &&& RemoveLeastPad = 0
        · simp only [if_pos hR]
          rw [goRepeat_of_nonneg _ (by omega : (0:Int) ≤ B + 1)]
          exact ⟨_, _, _, rfl, by omega⟩
        · simp only [if_neg hR]
          rw [goRepeat_of_nonneg _ hBpos]
          exact ⟨_, _, _, rfl, hBpos⟩
  · simp only [getPadding, if_neg hP]
    exact ⟨0, [], [], rfl, le_refl 0⟩

/-! ### C10: the column-width invariant -/

/-- C10: after `createColumns` (the `linesLoop` run of a flush, which starts
from an empty column list) returns, every line's colorless field in every
column is bounded by that column's `textWidth`; consequently `getPadding`
succeeds on every such field with a non-negative total padding, and the byte
repetition is never called with a negative count. -/
theorem C10_column_width_invariant (flags : Nat) (termCols : Int)
    (lines lines' : List GoStr) (rows : List (List GoStr)) (colsF : List column)
    (h : linesLoop flags termCols lines [] = some (lines', rows, colsF)) (l i : Nat) :
    (((rows.getD l []).getD i []).length : Int) ≤ (colsF.getD i ⟨0⟩).textWidth ∧
    ∃ tp lp rp, getPadding flags colsF i ((rows.getD l []).getD i []) =
      some (tp, lp, rp) ∧ 0 ≤ tp := by
  obtain ⟨-, -, hbound⟩ := linesLoop_spec flags termCols lines [] _ _ _ h
  have hb := hbound colsNonneg_nil l i
  exact ⟨hb, getPadding_total flags colsF i _ hb⟩

/-- C10 (witness): the invariant on a concrete two-line flush. -/
theorem C10_witness :
    ((((([[goStr "Name", goStr "Age"], [goStr "Alice", goStr "30"]] :
        List (List GoStr)).getD 1 []).getD 0 []).length : Int) ≤
      (([⟨5⟩, ⟨3⟩] : List column).getD 0 ⟨0⟩).textWidth) ∧
    ∃ tp lp rp, getPadding 0 [⟨5⟩, ⟨3⟩] 0
      ((([[goStr "Name", goStr "Age"], [goStr "Alice", goStr "30"]] :
        List (List GoStr)).getD 1 []).getD 0 []) = some (tp, lp, rp) ∧ 0 ≤ tp := by
  exact C10_column_width_invariant 0 80 [goStr "Name\tAge", goStr "Alice\t30"]
    [goStr "Name\tAge", goStr "Alice\t30"]
    [[goStr "Name", goStr "Age"], [goStr "Alice", goStr "30"]] [⟨5⟩, ⟨3⟩] (by decide) 1 0

/-! ### C5: truncation and earlier fields -/

/-- C5 (code bug): with terminal width 20 and the line consisting of two
identical ten-character fields, truncation of the LAST field rewrites the
stored line with `strings.Replace(line, field, newField, -1)`, which also
rewrites the identical FIRST field: after `createColumns`, the stored line's
first tab-separated field is no longer the original text (the function's own
documentation says it cuts the last exceeding field only). -/
theorem C5_truncation_rewrites_identical_earlier_field :
    linesLoop 0 20 [goStr "AAAAAAAAAA\tAAAAAAAAAA"] [] =
      some ([goStr "AA\x1b[33m[...]\x1b[0m\tAA\x1b[33m[...]\x1b[0m"],
        [[goStr "AAAAAAAAAA", goStr "AA[...]"]], [⟨10⟩, ⟨7⟩]) ∧
    (splitOnChar '\t'
        (goStr "AA\x1b[33m[...]\x1b[0m\tAA\x1b[33m[...]\x1b[0m")).getD 0 [] ≠
      goStr "AAAAAAAAAA" := by decide

/-! ### C2 (counterexample): the pipeline is not total -/

/-- C2 (counterexample): a flush with terminal width 1 and the one-character
buffer `a` panics: `maxFieldLen = 1/1 - 3 = -2`, the single field's colorless
length 1 exceeds it, and the slice `[:maxFieldLen-5] = [:-7]` is a
negative-index string slice. -/
theorem C2_counterexample : renderOutput (mkWriter 1 0 (goStr "a")) = none := by decide


/-! ### C2: totality of the formatting stages -/

/-- `truncateLongField` cannot panic when truncation is disabled, the width
is unknown, or the per-column budget is at least five. -/
theorem truncateLongField_total (flags : Nat) (termCols mfl : Int) (nf c : Nat)
    (field colorless line : GoStr)
    (h : flags &&& PreserveLongFields ≠ 0 ∨ termCols ≤ 0 ∨ 5 ≤ mfl) :
    ∃ out, truncateLongField flags termCols mfl nf c field colorless line = some out := by
  rw [truncateLongField]
  by_cases hcond : flags &&& PreserveLongFields = 0 ∧ 0 < termCols ∧ c = nf - 1 ∧
      mfl < (colorless.length : Int)
  · rw [if_pos hcond]
    have h5 : 5 ≤ mfl := by
      rcases h with h | h | h
      · exact absurd hcond.1 h
      · exact absurd hcond.2.1 (by omega)
      · exact h
    have hlen := hcond.2.2.2
    rw [goSliceTo, if_neg (by omega)]
    exact ⟨_, rfl⟩
  · rw [if_neg hcond]
    exact ⟨_, rfl⟩

/-- The field loop cannot panic under the same proviso. -/
theorem fieldLoop_total (flags : Nat) (termCols mfl : Int) (nf : Nat)
    (h : flags &&& PreserveLongFields ≠ 0 ∨ termCols ≤ 0 ∨ 5 ≤ mfl) :
    ∀ (fs : List GoStr) (c : Nat) (line : GoStr) (cols : List column),
      ∃ out, fieldLoop flags termCols mfl nf fs c line cols = some out
  | [], c, line, cols => ⟨_, rfl⟩
  | f :: fs, c, line, cols => by
    obtain ⟨pr, ht⟩ :=
      truncateLongField_total flags termCols mfl nf c f (stripCodes f) line h
    obtain ⟨colorless, line2⟩ := pr
    obtain ⟨out2, hr⟩ := fieldLoop_total flags termCols mfl nf h fs (c + 1) line2
      (bumpWidth cols c colorless.length)
    obtain ⟨l3, r3, c3⟩ := out2
    simp only [fieldLoop]
    rw [ht]
    dsimp only
    rw [hr]
    exact ⟨_, rfl⟩

/-- The outer `createColumns` loop cannot panic when truncation is disabled,
the width is unknown, or every non-empty line's per-column budget
`termCols / numFields` is at least eight (so `maxFieldLen ≥ 5`). -/
theorem linesLoop_total (flags : Nat) (termCols : Int) :
    ∀ (lines : List GoStr) (cols : List column),
      (flags &&& PreserveLongFields ≠ 0 ∨ termCols ≤ 0 ∨
        ∀ line ∈ lines, line ≠ [] →
          8 ≤ Int.tdiv termCols ((splitOnChar '\t' line).length : Int)) →
      ∃ out, linesLoop flags termCols lines cols = some out
  | [], cols, h => ⟨_, rfl⟩
  | line :: ls, cols, h => by
    have hTail : flags &&& PreserveLongFields ≠ 0 ∨ termCols ≤ 0 ∨
        ∀ l2 ∈ ls, l2 ≠ [] →
          8 ≤ Int.tdiv termCols ((splitOnChar '\t' l2).length : Int) := by
      rcases h with h | h | h
      · exact Or.inl h
      · exact Or.inr (Or.inl h)
      · exact Or.inr (Or.inr fun l2 hm => h l2 (List.mem_cons_of_mem _ hm))
    by_cases he : line = []
    · obtain ⟨out2, hr⟩ := linesLoop_total flags termCols ls cols hTail
      obtain ⟨l2, r2, c2⟩ := out2
      simp only [linesLoop, if_pos he]
      rw [hr]
      exact ⟨_, rfl⟩
    · have hmfl : flags &&& PreserveLongFields ≠ 0 ∨ termCols ≤ 0 ∨
          5 ≤ Int.tdiv termCols ((splitOnChar '\t' line).length : Int) - 3 := by
        rcases h with h | h | h
        · exact Or.inl h
        · exact Or.inr (Or.inl h)
        · refine Or.inr (Or.inr ?_)
          have := h line (by simp) he
          omega
      obtain ⟨outf, hf⟩ := fieldLoop_total flags termCols
        (Int.tdiv termCols ((splitOnChar '\t' line).length : Int) - 3)
        (splitOnChar '\t' line).length hmfl (splitOnChar '\t' line) 0 line
        (if cols.length < (splitOnChar '\t' line).length
          then cols ++ List.replicate ((splitOnChar '\t' line).length - cols.length) ⟨0⟩
          else cols)
      obtain ⟨l2, r2, c2⟩ := outf
      obtain ⟨out2, hr⟩ := linesLoop_total flags termCols ls c2 hTail
      obtain ⟨l3, r3, c3⟩ := out2
      simp only [linesLoop, if_neg he]
      rw [hf]
      dsimp only
      rw [hr]
      exact ⟨_, rfl⟩

/-- `updateHLine` cannot panic when the requested segment length is at least
one (`strings.Repeat` never sees a negative count). -/
theorem updateHLine_total (dv : Dividers) (termCols : Int) (hl : GoStr)
    (hLineLength : Int) (l : Nat) (isLastRow isLastField : Bool)
    (h : 1 ≤ hLineLength) :
    ∃ r, updateHLine dv termCols hl hLineLength l isLastRow isLastField = some r := by
  simp only [updateHLine]
  by_cases h1 : 0 < termCols - Int.tdiv (hl.length : Int) (dv.HLine.length : Int)
  · rw [if_pos h1]
    by_cases h2 : hLineLength ≤ termCols - Int.tdiv (hl.length : Int) (dv.HLine.length : Int)
    · rw [if_pos h2, goRepeatStr, if_neg (by omega)]
      exact ⟨_, rfl⟩
    · rw [if_neg h2, goRepeatStr, if_neg (by omega)]
      exact ⟨_, rfl⟩
  · rw [if_neg h1]
    exact ⟨_, rfl⟩

/-- The rendering field loop cannot panic when every colorless entry of the
row is bounded by its column's width. -/
theorem tableFieldLoop_total (flags : Nat) (dv : Dividers) (termCols : Int)
    (cols : List column) (row : List GoStr) (nf total l : Nat)
    (hrow : ∀ i, (((row.getD i []).length : Int)) ≤ (cols.getD i ⟨0⟩).textWidth) :
    ∀ (fs : List GoStr) (c : Nat) (buf pfx hl : GoStr),
      ∃ out, tableFieldLoop flags dv termCols cols row nf total l fs c buf pfx hl = some out
  | [], c, buf, pfx, hl => ⟨_, rfl⟩
  | f :: fs, c, buf, pfx, hl => by
    obtain ⟨tp, lp, rp, hgp, htp⟩ := getPadding_total flags cols c (row.getD c []) (hrow c)
    have hlen : (1:Int) ≤ (((row.getD c []).length : Nat) : Int) + tp + 1 := by
      have : (0:Int) ≤ (((row.getD c []).length : Nat) : Int) := by omega
      omega
    simp only [tableFieldLoop]
    rw [hgp]
    dsimp only
    by_cases hl0 : l = 0
    · rw [if_pos hl0]
      obtain ⟨p2, hp2⟩ := updateHLine_total dv termCols pfx
        ((((row.getD c []).length : Nat) : Int) + tp + 1) 0 (l == total - 1) (c == nf - 1) hlen
      rw [hp2]
      dsimp only
      obtain ⟨h2v, hh2⟩ := updateHLine_total dv termCols hl
        ((((row.getD c []).length : Nat) : Int) + tp + 1) (l + 1) (l == total - 1)
        (c == nf - 1) hlen
      rw [hh2]
      dsimp only
      exact tableFieldLoop_total flags dv termCols cols row nf total l hrow fs (c + 1) _ _ _
    · rw [if_neg hl0]
      dsimp only
      obtain ⟨h2v, hh2⟩ := updateHLine_total dv termCols hl
        ((((row.getD c []).length : Nat) : Int) + tp + 1) (l + 1) (l == total - 1)
        (c == nf - 1) hlen
      rw [hh2]
      dsimp only
      exact tableFieldLoop_total flags dv termCols cols row nf total l hrow fs (c + 1) _ _ _

/-- The rendering outer loop cannot panic when every colorless entry of every
row is bounded by its column's width. -/
theorem createTableLoop_total (flags : Nat) (dv : Dividers) (termCols : Int)
    (cols : List column) (total : Nat) :
    ∀ (ls : List GoStr) (l : Nat) (rows : List (List GoStr)),
      (∀ l2 i, (((rows.getD l2 []).getD i []).length : Int) ≤ (cols.getD i ⟨0⟩).textWidth) →
      ∃ out, createTableLoop flags dv termCols cols total l ls rows = some out
  | [], l, rows, _ => ⟨_, rfl⟩
  | line :: ls, l, rows, hrows => by
    by_cases he : line = []
    · simp only [createTableLoop, if_pos he]
      exact createTableLoop_total flags dv termCols cols total ls (l + 1) rows.tail
        (fun l2 i => by rw [getD_tail]; exact hrows (l2 + 1) i)
    · simp only [createTableLoop, if_neg he]
      obtain ⟨outf, htf⟩ := tableFieldLoop_total flags dv termCols cols (rows.headD [])
        (splitOnChar '\t' line).length total l
        (fun i => by rw [headD_eq_getD]; exact hrows 0 i)
        (splitOnChar '\t' line) 0 [] [] []
      obtain ⟨buf, pfx, hl⟩ := outf
      rw [htf]
      dsimp only
      obtain ⟨rest, hrest⟩ := createTableLoop_total flags dv termCols cols total ls (l + 1)
        rows.tail (fun l2 i => by rw [getD_tail]; exact hrows (l2 + 1) i)
      rw [hrest]
      exact ⟨_, rfl⟩

/-- C2 (amended): the sanitization, splitting, width-computation, padding and
border stages of a flush are total — no stage can fail — provided that,
whenever truncation is live (not disabled by `PreserveLongFields`, terminal
width known), every non-empty line's per-column budget `termCols/numFields`
is at least 8, i.e. `maxFieldLen ≥ 5`.  (Without that proviso the truncation
slice `[:maxFieldLen-5]` is negative and the flush panics, so the claim as
stated is false.) -/
theorem C2_pipeline_total_unless_tight (termCols : Int) (flags : Nat) (buf : GoStr)
    (h : flags &&& PreserveLongFields ≠ 0 ∨ termCols ≤ 0 ∨
      ∀ line ∈ splitLines (mkWriter termCols flags buf), line ≠ [] →
        8 ≤ Int.tdiv termCols ((splitOnChar '\t' line).length : Int)) :
    ∃ out, renderOutput (mkWriter termCols flags buf) = some out := by
  obtain ⟨outl, hll⟩ :=
    linesLoop_total flags termCols (splitLines (mkWriter termCols flags buf)) [] h
  obtain ⟨lines', rows, colsF⟩ := outl
  obtain ⟨-, -, hbound⟩ := linesLoop_spec flags termCols _ [] _ _ _ hll
  have hrows := hbound colsNonneg_nil
  simp only [mkWriter, Writer.init] at hll
  simp only [renderOutput, formatBuffer, createColumns, createTable, mkWriter, Writer.init]
  rw [hll]
  dsimp only
  exact createTableLoop_total flags _ termCols colsF lines'.length lines' 0 rows hrows

/-- C2 (witness): the amended totality at width 80, default flags, and the
buffer consisting of one two-field line. -/
theorem C2_witness : ∃ out, renderOutput (mkWriter 80 0 (goStr "ab\tc")) = some out :=
  C2_pipeline_total_unless_tight 80 0 (goStr "ab\tc") (Or.inr (Or.inr (by decide)))



/-! ### C7: color stripping — well-colored strings and the regex scan -/

/-- No escape character occurs in the string. -/
def noESC (s : GoStr) : Prop := '\x1b' ∉ s

instance noESC_decidable (s : GoStr) : Decidable (noESC s) :=
  inferInstanceAs (Decidable ('\x1b' ∉ s))

/-- `s` is exactly one color escape code: the escape character, an open
bracket, a nonempty run of class characters, and the letter m. -/
def IsCode (s : GoStr) : Prop :=
  ∃ run, run ≠ [] ∧ (∀ c ∈ run, isCodeDigit c = true) ∧
    s = '\x1b' :: '[' :: (run ++ ['m'])

/-- Well-colored strings: every escape character begins a well-formed color
escape code. -/
inductive WfColor : GoStr → Prop
  | nil : WfColor []
  | cons (c : Char) (hc : c ≠ '\x1b') {s : GoStr} (hs : WfColor s) : WfColor (c :: s)
  | code {cc s : GoStr} (hcc : IsCode cc) (hs : WfColor s) : WfColor (cc ++ s)

/-- A class character is not the escape character. -/
theorem isCodeDigit_ne_esc {c : Char} (h : isCodeDigit c = true) : c ≠ '\x1b' := by
  intro hx
  subst hx
  exact absurd h (by decide)

/-- The characters of a color code, by code point. -/
theorem isCode_chars {cc : GoStr} (h : IsCode cc) :
    ∀ c ∈ cc, c.toNat = 0x1b ∨ c.toNat = 0x5b ∨ isCodeDigit c = true ∨ c.toNat = 0x6d := by
  obtain ⟨run, -, hdig, rfl⟩ := h
  intro c hc
  simp only [List.mem_cons, List.mem_append, List.mem_singleton] at hc
  rcases hc with rfl | rfl | hc | rfl | hc
  · left; rfl
  · right; left; rfl
  · exact Or.inr (Or.inr (Or.inl (hdig c hc)))
  · exact Or.inr (Or.inr (Or.inr rfl))
  · exact absurd hc (List.not_mem_nil c)

/-- The tail of a color code (after the escape character) has no escape
character, and a code is nonempty with escape head. -/
theorem isCode_shape {cc : GoStr} (h : IsCode cc) :
    ∃ t, cc = '\x1b' :: t ∧ noESC t := by
  obtain ⟨run, -, hdig, rfl⟩ := h
  refine ⟨'[' :: (run ++ ['m']), rfl, ?_⟩
  intro hm
  simp only [List.mem_cons, List.mem_append, List.mem_singleton] at hm
  rcases hm with he | he | he | he
  · exact absurd he.symm (by decide)
  · exact absurd (hdig _ he) (by decide)
  · exact absurd he.symm (by decide)
  · exact absurd he (List.not_mem_nil _)

/-- Successful regex matches decompose the string and are well-formed codes. -/
theorem matchColorCode_some : ∀ {s code tail : GoStr},
    matchColorCode s = some (code, tail) → s = code ++ tail ∧ IsCode code := by
  intro s code tail h
  match s with
  | [] => simp [matchColorCode] at h
  | [c1] => simp [matchColorCode] at h
  | c1 :: c2 :: rest =>
    rw [matchColorCode] at h
    by_cases h12 : c1 = '\x1b' ∧ c2 = '['
    · rw [if_pos h12] at h
      cases hd : rest.dropWhile isCodeDigit with
      | nil => rw [hd] at h; cases h
      | cons c3 tail2 =>
        rw [hd] at h
        dsimp only at h
        by_cases h3 : c3 = 'm' ∧ rest.takeWhile isCodeDigit ≠ []
        · rw [if_pos h3] at h
          simp only [Option.some.injEq, Prod.mk.injEq] at h
          obtain ⟨hcode, htail⟩ := h
          subst hcode
          subst htail
          obtain ⟨rfl, rfl⟩ := h12
          constructor
          · have hsplit := List.takeWhile_append_dropWhile isCodeDigit rest
            rw [hd, h3.1] at hsplit
            simp only [List.cons_append, List.append_assoc, List.singleton_append,
              List.nil_append]
            rw [hsplit]
          · exact ⟨rest.takeWhile isCodeDigit, h3.2,
              fun c hc => List.mem_takeWhile_imp hc, rfl⟩
        · rw [if_neg h3] at h; cases h
    · rw [if_neg h12] at h; cases h

/-- The letter m is not a class character. -/
theorem isCodeDigit_m : isCodeDigit 'm' = false := by decide

/-- Take and drop of a class run followed by a non-class character. -/
theorem takeWhile_append_run {p : Char → Bool} :
    ∀ (run : GoStr) (x : Char) (s : GoStr), (∀ c ∈ run, p c = true) → p x = false →
      (run ++ x :: s).takeWhile p = run ∧ (run ++ x :: s).dropWhile p = x :: s
  | [], x, s, _, hx => by simp [List.takeWhile_cons, List.dropWhile_cons, hx]
  | c :: run, x, s, hall, hx => by
    have hc : p c = true := hall c (by simp)
    have IH := takeWhile_append_run run x s (fun d hd => hall d (by simp [hd])) hx
    simp [List.takeWhile_cons, List.dropWhile_cons, hc, IH.1, IH.2]

/-- The regex matches a well-formed code at the head, consuming exactly it. -/
theorem matchColorCode_code {code : GoStr} (s : GoStr) (h : IsCode code) :
    matchColorCode (code ++ s) = some (code, s) := by
  obtain ⟨run, hne, hdig, rfl⟩ := h
  have hrun := takeWhile_append_run run 'm' s hdig isCodeDigit_m
  simp only [List.cons_append, List.append_assoc, List.singleton_append, List.nil_append]
  rw [matchColorCode, if_pos ⟨rfl, rfl⟩, hrun.2]
  dsimp only
  rw [if_pos ⟨rfl, by rw [hrun.1]; exact hne⟩, hrun.1]

/-- The regex cannot match at a non-escape character. -/
theorem matchColorCode_ne_esc {c : Char} (hc : c ≠ '\x1b') (s : GoStr) :
    matchColorCode (c :: s) = none := by
  cases s with
  | nil => rfl
  | cons c2 rest => rw [matchColorCode, if_neg (fun h => hc h.1)]

/-- A match consumes at least one character. -/
theorem matchColorCode_length {s code tail : GoStr}
    (h : matchColorCode s = some (code, tail)) : tail.length < s.length := by
  obtain ⟨heq, hcode⟩ := matchColorCode_some h
  obtain ⟨run, -, -, rfl⟩ := hcode
  rw [heq]
  simp only [List.length_append, List.length_cons]
  omega

/-- The scan result does not depend on the fuel, once sufficient. -/
theorem findAllGo_congr : ∀ (n1 n2 : Nat) (s : GoStr), s.length ≤ n1 → s.length ≤ n2 →
    findAllGo n1 s = findAllGo n2 s
  | n1, n2, [], _, _ => by cases n1 <;> cases n2 <;> rfl
  | 0, _, c :: rest, h1, _ => by simp at h1
  | _ + 1, 0, c :: rest, _, h2 => by simp at h2
  | n1 + 1, n2 + 1, c :: rest, h1, h2 => by
    simp only [findAllGo]
    cases hm : matchColorCode (c :: rest) with
    | none =>
      dsimp only
      simp only [List.length_cons] at h1 h2
      exact findAllGo_congr n1 n2 rest (by omega) (by omega)
    | some pr =>
      obtain ⟨code, tail⟩ := pr
      dsimp only
      have hl := matchColorCode_length hm
      simp only [List.length_cons] at h1 h2 hl
      rw [findAllGo_congr n1 n2 tail (by omega) (by omega)]

/-- Unfolding the scan when no match starts at the head. -/
theorem findAll_cons_none {c : Char} {s : GoStr} (h : matchColorCode (c :: s) = none) :
    findAllColorCodes (c :: s) = findAllColorCodes s := by
  rw [findAllColorCodes, findAllColorCodes, List.length_cons]
  simp only [findAllGo, h]

/-- Unfolding the scan at a match. -/
theorem findAll_match {s code tail : GoStr} (h : matchColorCode s = some (code, tail)) :
    findAllColorCodes s = code :: findAllColorCodes tail := by
  cases s with
  | nil => simp [matchColorCode] at h
  | cons c rest =>
    rw [findAllColorCodes, findAllColorCodes, List.length_cons]
    simp only [findAllGo, h]
    have hl := matchColorCode_length h
    simp only [List.length_cons] at hl
    rw [findAllGo_congr rest.length tail.length tail (by omega) (le_refl _)]

/-- An escape-free string has no matches. -/
theorem findAll_of_noESC : ∀ {s : GoStr}, noESC s → findAllColorCodes s = []
  | [], _ => rfl
  | c :: rest, h => by
    have hc : c ≠ '\x1b' := by
      intro hx
      subst hx
      exact h (List.mem_cons_self _ _)
    rw [findAll_cons_none (matchColorCode_ne_esc hc rest)]
    exact findAll_of_noESC (fun hm => h (List.mem_cons_of_mem c hm))

/-- The scan skips an escape-free prefix. -/
theorem findAll_append_noESC : ∀ {pre : GoStr} (x : GoStr), noESC pre →
    findAllColorCodes (pre ++ x) = findAllColorCodes x
  | [], x, _ => rfl
  | c :: pre, x, h => by
    have hc : c ≠ '\x1b' := by
      intro hx
      subst hx
      exact h (List.mem_cons_self _ _)
    rw [List.cons_append, findAll_cons_none (matchColorCode_ne_esc hc _)]
    exact findAll_append_noESC x (fun hm => h (List.mem_cons_of_mem c hm))

/-- The scan finds a leading code and continues past it. -/
theorem findAll_code_append {code : GoStr} (s : GoStr) (h : IsCode code) :
    findAllColorCodes (code ++ s) = code :: findAllColorCodes s :=
  findAll_match (matchColorCode_code s h)

/-- Everything the scan returns is a well-formed code. -/
theorem findAll_isCode : ∀ (n : Nat) (s : GoStr), s.length ≤ n →
    ∀ cc ∈ findAllColorCodes s, IsCode cc
  | _, [], _, cc, hm => by simp [findAllColorCodes, findAllGo] at hm
  | 0, c :: rest, h, _, _ => by simp at h
  | n + 1, c :: rest, h, cc, hm => by
    cases hmc : matchColorCode (c :: rest) with
    | none =>
      rw [findAll_cons_none hmc] at hm
      simp only [List.length_cons] at h
      exact findAll_isCode n rest (by omega) cc hm
    | some pr =>
      obtain ⟨code, tail⟩ := pr
      rw [findAll_match hmc] at hm
      rcases List.mem_cons.mp hm with rfl | hm2
      · exact (matchColorCode_some hmc).2
      · have hlt := matchColorCode_length hmc
        simp only [List.length_cons] at h hlt
        exact findAll_isCode n tail (by omega) cc hm2

/-- A well-colored string with no matches is escape-free. -/
theorem noESC_of_wf_no_codes : ∀ {s : GoStr}, WfColor s → findAllColorCodes s = [] →
    noESC s := by
  intro s hwf
  induction hwf with
  | nil => intro _ hm; simp at hm
  | cons c hc hs IH =>
    intro hfa
    rw [findAll_cons_none (matchColorCode_ne_esc hc _)] at hfa
    intro hm
    rcases List.mem_cons.mp hm with he | hm2
    · exact hc he.symm
    · exact IH hfa hm2
  | code hcc hs IH =>
    intro hfa
    rw [findAll_code_append _ hcc] at hfa
    cases hfa



/-! ### C7: `strings.Replace` lemmas -/

/-- The replace scan does not depend on the fuel, once sufficient. -/
theorem replaceAllGo_congr (old new : GoStr) (hne : old ≠ []) :
    ∀ (n1 n2 : Nat) (s : GoStr), s.length ≤ n1 → s.length ≤ n2 →
      replaceAllGo old new n1 s = replaceAllGo old new n2 s
  | n1, n2, [], _, _ => by cases n1 <;> cases n2 <;> rfl
  | 0, _, c :: rest, h1, _ => by simp at h1
  | _ + 1, 0, c :: rest, _, h2 => by simp at h2
  | n1 + 1, n2 + 1, c :: rest, h1, h2 => by
    have hlp : 0 < old.length := List.length_pos.mpr hne
    simp only [List.length_cons] at h1 h2
    simp only [replaceAllGo]
    by_cases hp : old.isPrefixOf (c :: rest) = true
    · rw [if_pos hp, if_pos hp]
      congr 1
      exact replaceAllGo_congr old new hne n1 n2 _
        (by simp only [List.length_drop, List.length_cons]; omega)
        (by simp only [List.length_drop, List.length_cons]; omega)
    · rw [if_neg hp, if_neg hp]
      congr 1
      exact replaceAllGo_congr old new hne n1 n2 rest (by omega) (by omega)

/-- `strings.Replace` on the empty string. -/
theorem replaceAll_nil (old new : GoStr) (hne : old ≠ []) : replaceAll [] old new = [] := by
  rw [replaceAll, if_neg hne]
  rfl

/-- `strings.Replace` when the pattern matches at the head. -/
theorem replaceAll_pos {s old : GoStr} (new : GoStr) (hne : old ≠ [])
    (hp : old.isPrefixOf s = true) :
    replaceAll s old new = new ++ replaceAll (s.drop old.length) old new := by
  cases s with
  | nil =>
    cases old with
    | nil => exact absurd rfl hne
    | cons o os => simp [List.isPrefixOf] at hp
  | cons c rest =>
    have hlp : 0 < old.length := List.length_pos.mpr hne
    rw [replaceAll, if_neg hne, replaceAll, if_neg hne, List.length_cons]
    simp only [replaceAllGo]
    rw [if_pos hp]
    congr 1
    exact replaceAllGo_congr old new hne rest.length ((c :: rest).drop old.length).length _
      (by simp only [List.length_drop, List.length_cons]; omega) (le_refl _)

/-- `strings.Replace` when the pattern does not match at the head. -/
theorem replaceAll_neg {old : GoStr} (new : GoStr) (c : Char) (rest : GoStr)
    (hne : old ≠ []) (hp : ¬ old.isPrefixOf (c :: rest) = true) :
    replaceAll (c :: rest) old new = c :: replaceAll rest old new := by
  rw [replaceAll, if_neg hne, replaceAll, if_neg hne, List.length_cons]
  simp only [replaceAllGo]
  rw [if_neg hp]

/-- Deleting a code passes over an escape-free prefix untouched. -/
theorem replaceAll_skip : ∀ {pre : GoStr} (x : GoStr) {cc : GoStr}, noESC pre → IsCode cc →
    replaceAll (pre ++ x) cc [] = pre ++ replaceAll x cc []
  | [], x, cc, _, _ => by simp
  | c :: pre, x, cc, h, hcc => by
    have hc : c ≠ '\x1b' := by
      intro hx
      subst hx
      exact h (List.mem_cons_self _ _)
    obtain ⟨t, hshape, -⟩ := isCode_shape hcc
    have hccne : cc ≠ [] := by rw [hshape]; simp
    have hpre : ¬ cc.isPrefixOf (c :: (pre ++ x)) = true := by
      rw [hshape]
      simp only [List.isPrefixOf, Bool.and_eq_true, beq_iff_eq]
      intro hand
      exact hc hand.1.symm
    rw [List.cons_append, replaceAll_neg _ _ _ hccne hpre, List.cons_append,
      replaceAll_skip x (fun hm => h (List.mem_cons_of_mem c hm)) hcc]

/-- Deleting a code from an escape-free string changes nothing. -/
theorem replaceAll_noESC_fix {s cc : GoStr} (h : noESC s) (hcc : IsCode cc) :
    replaceAll s cc [] = s := by
  have hccne : cc ≠ [] := by
    obtain ⟨t, rfl, -⟩ := isCode_shape hcc
    simp
  have h2 := @replaceAll_skip s [] cc h hcc
  rw [List.append_nil, replaceAll_nil _ _ hccne, List.append_nil] at h2
  exact h2

/-- Deleting a code that stands at the head removes exactly it. -/
theorem replaceAll_head_code {code : GoStr} (rest : GoStr) (hcode : IsCode code) :
    replaceAll (code ++ rest) code [] = replaceAll rest code [] := by
  have hne : code ≠ [] := by
    obtain ⟨t, rfl, -⟩ := isCode_shape hcode
    simp
  rw [replaceAll_pos [] hne
    (by rw [List.isPrefixOf_iff_prefix]; exact List.prefix_append _ _)]
  rw [List.drop_left, List.nil_append]

/-- Two class runs closed by the letter m: a prefix relation forces them
equal (the class excludes the closing letter). -/
theorem run_prefix_eq : ∀ {r r' : GoStr} {rest : GoStr},
    (∀ c ∈ r, isCodeDigit c = true) → (∀ c ∈ r', isCodeDigit c = true) →
    (r ++ ['m']) <+: (r' ++ 'm' :: rest) → r = r'
  | [], [], _, _, _, _ => rfl
  | [], d :: r'2, rest, h1, h2, hp => by
    rw [List.nil_append, List.cons_append, List.cons_prefix_cons] at hp
    have hd := h2 d (by simp)
    rw [← hp.1] at hd
    exact absurd hd (by decide)
  | d :: r2, [], rest, h1, h2, hp => by
    rw [List.cons_append, List.nil_append, List.cons_prefix_cons] at hp
    have hd := h1 d (by simp)
    rw [hp.1] at hd
    exact absurd hd (by decide)
  | d :: r2, d' :: r'2, rest, h1, h2, hp => by
    rw [List.cons_append, List.cons_append, List.cons_prefix_cons] at hp
    rw [hp.1, run_prefix_eq (fun c hc => h1 c (by simp [hc]))
      (fun c hc => h2 c (by simp [hc])) hp.2]

/-- A code that is a prefix of another code (with anything appended) is that
code. -/
theorem code_prefix_eq {cc code : GoStr} (rest : GoStr) (hcc : IsCode cc)
    (hcode : IsCode code) (hp : cc.isPrefixOf (code ++ rest) = true) : cc = code := by
  obtain ⟨r, -, hr2, rfl⟩ := hcc
  obtain ⟨r', -, hr2', rfl⟩ := hcode
  rw [List.isPrefixOf_iff_prefix] at hp
  simp only [List.cons_append, List.append_assoc, List.singleton_append] at hp
  rw [List.cons_prefix_cons] at hp
  obtain ⟨-, hp2⟩ := hp
  rw [List.cons_prefix_cons] at hp2
  obtain ⟨-, hp3⟩ := hp2
  rw [run_prefix_eq hr2 hr2' hp3]

/-- Deleting a different code passes over a leading code untouched. -/
theorem replaceAll_pass_code {cc code : GoStr} (rest : GoStr) (hcc : IsCode cc)
    (hcode : IsCode code) (hne : cc ≠ code) :
    replaceAll (code ++ rest) cc [] = code ++ replaceAll rest cc [] := by
  obtain ⟨t, hshape, hnoesc⟩ := isCode_shape hcode
  have hccne : cc ≠ [] := by
    obtain ⟨t2, rfl, -⟩ := isCode_shape hcc
    simp
  have hp : ¬ cc.isPrefixOf (code ++ rest) = true :=
    fun hp => hne (code_prefix_eq rest hcc hcode hp)
  rw [hshape] at hp ⊢
  rw [List.cons_append, replaceAll_neg _ _ _ hccne (by rw [← List.cons_append]; exact hp),
    replaceAll_skip rest hnoesc hcc, List.cons_append]



/-! ### C7: stripping a well-colored string leaves no escape character -/

/-- An escape-free prefix in front of a well-colored string stays
well-colored. -/
theorem wf_append : ∀ {pre x : GoStr}, noESC pre → WfColor x → WfColor (pre ++ x)
  | [], x, _, hx => hx
  | c :: pre, x, h, hx => by
    rw [List.cons_append]
    exact WfColor.cons c (fun hc => by subst hc; exact h (List.mem_cons_self _ _))
      (wf_append (fun hm => h (List.mem_cons_of_mem c hm)) hx)

/-- Well-colored decomposition: either escape-free, or an escape-free prefix
followed by a code and a shorter well-colored remainder. -/
theorem wf_decomp : ∀ {s : GoStr}, WfColor s →
    noESC s ∨ ∃ pre code rest, s = pre ++ (code ++ rest) ∧ noESC pre ∧ IsCode code ∧
      WfColor rest ∧ rest.length < s.length := by
  intro s hwf
  induction hwf with
  | nil => exact Or.inl (by simp [noESC])
  | cons c hc hs IH =>
    rcases IH with h | ⟨pre, code, rest, rfl, hpre, hcode, hrest, hlen⟩
    · left
      intro hm
      rcases List.mem_cons.mp hm with he | hm2
      · exact hc he.symm
      · exact h hm2
    · right
      refine ⟨c :: pre, code, rest, by simp, ?_, hcode, hrest, ?_⟩
      · intro hm
        rcases List.mem_cons.mp hm with he | hm2
        · exact hc he.symm
        · exact hpre hm2
      · simp only [List.length_cons, List.length_append] at hlen ⊢
        omega
  | @code cc s2 hcc hs IH =>
    right
    obtain ⟨t, hshape, -⟩ := isCode_shape hcc
    refine ⟨[], cc, s2, by simp, by simp [noESC], hcc, hs, ?_⟩
    rw [hshape]
    simp only [List.length_append, List.length_cons, List.nil_append]
    omega

/-- Deleting one found code from a well-colored string keeps it well-colored,
and every remaining match is an old match different from the deleted code. -/
theorem replace_code_wf (cc : GoStr) (hcc : IsCode cc) : ∀ (n : Nat) (s : GoStr),
    s.length ≤ n → WfColor s →
    WfColor (replaceAll s cc []) ∧
    (∀ d ∈ findAllColorCodes (replaceAll s cc []),
      d ∈ findAllColorCodes s ∧ d ≠ cc) := by
  have hccne : cc ≠ [] := by
    obtain ⟨t, rfl, -⟩ := isCode_shape hcc
    simp
  intro n
  induction n with
  | zero =>
    intro s hn hwf
    have hs : s = [] := List.length_eq_zero.mp (le_antisymm hn (Nat.zero_le _))
    subst hs
    rw [replaceAll_nil _ _ hccne]
    exact ⟨WfColor.nil, fun d hd => by simp [findAllColorCodes, findAllGo] at hd⟩
  | succ n IH =>
    intro s hn hwf
    rcases wf_decomp hwf with h | ⟨pre, code, rest, rfl, hpre, hcode, hrest, hlen⟩
    · rw [replaceAll_noESC_fix h hcc]
      refine ⟨hwf, fun d hd => ?_⟩
      rw [findAll_of_noESC h] at hd
      exact absurd hd (by simp)
    · have hrestlen : rest.length ≤ n := by
        simp only [List.length_append] at hn hlen
        omega
      obtain ⟨IHwf, IHmem⟩ := IH rest hrestlen hrest
      rw [replaceAll_skip _ hpre hcc]
      by_cases hceq : cc = code
      · subst hceq
        rw [replaceAll_head_code rest hcc]
        refine ⟨wf_append hpre IHwf, fun d hd => ?_⟩
        rw [findAll_append_noESC _ hpre] at hd
        have hm := IHmem d hd
        rw [findAll_append_noESC _ hpre, findAll_code_append _ hcc]
        exact ⟨List.mem_cons_of_mem _ hm.1, hm.2⟩
      · rw [replaceAll_pass_code rest hcc hcode hceq]
        refine ⟨wf_append hpre (WfColor.code hcode IHwf), fun d hd => ?_⟩
        rw [findAll_append_noESC _ hpre, findAll_code_append _ hcode] at hd
        rw [findAll_append_noESC _ hpre, findAll_code_append _ hcode]
        rcases List.mem_cons.mp hd with rfl | hd2
        · exact ⟨List.mem_cons_self _ _, fun he => hceq he.symm⟩
        · have hm := IHmem d hd2
          exact ⟨List.mem_cons_of_mem _ hm.1, hm.2⟩

/-- Folding the deletion of every code in `M` over a well-colored string
whose matches all lie in `M` leaves no escape character. -/
theorem foldl_replace_noESC : ∀ (M : List GoStr) (s : GoStr), WfColor s →
    (∀ cc ∈ M, IsCode cc) → (∀ cc ∈ findAllColorCodes s, cc ∈ M) →
    noESC (M.foldl (fun a cc => replaceAll a cc []) s)
  | [], s, hwf, _, hsub => by
    have hfa : findAllColorCodes s = [] := by
      cases hfa : findAllColorCodes s with
      | nil => rfl
      | cons d ds => exact absurd (hsub d (by rw [hfa]; simp)) (by simp)
    exact noESC_of_wf_no_codes hwf hfa
  | cc :: M', s, hwf, hM, hsub => by
    have hcc : IsCode cc := hM cc (by simp)
    obtain ⟨hwf', hmem⟩ := replace_code_wf cc hcc s.length s (le_refl _) hwf
    rw [List.foldl_cons]
    refine foldl_replace_noESC M' _ hwf' (fun d hd => hM d (by simp [hd])) ?_
    intro d hd
    have hm := hmem d hd
    rcases List.mem_cons.mp (hsub d hm.1) with rfl | h2
    · exact absurd rfl hm.2
    · exact h2

/-- Stripping the found color codes from a well-colored field leaves no
escape character. -/
theorem stripCodes_noESC {f : GoStr} (h : WfColor f) : noESC (stripCodes f) := by
  rw [stripCodes]
  exact foldl_replace_noESC (findAllColorCodes f) f h
    (findAll_isCode f.length f (le_refl _)) (fun cc hc => hc)



/-! ### C7: the sanitizer and the splitters preserve well-coloredness -/

/-- The sanitizer callback never rewrites a kept character. -/
theorem cleanRune_some {c d : Char} (h : cleanRune c = some d) : d = c := by
  rw [cleanRune] at h
  split at h
  · exact (Option.some.inj h).symm
  · split at h
    · cases h
    · split at h
      · cases h
      · exact (Option.some.inj h).symm

/-- Characters kept verbatim by the sanitizer: the escape character and the
printable ASCII range that color codes are made of. -/
theorem cleanRune_keep {c : Char} (h : c.toNat = 0x1b ∨ (33 ≤ c.toNat ∧ c.toNat ≤ 126)) :
    cleanRune c = some c := by
  rcases h with h | h
  · rw [cleanRune, if_pos (Or.inr (Or.inl h))]
  · rw [cleanRune, if_neg, if_neg, if_neg]
    all_goals
      try simp only [isCfChar, isCcChar, isMnChar, isZsChar, isSpaceGo, Bool.or_eq_true,
        Bool.and_eq_true, decide_eq_true_eq]
    all_goals omega

/-- The sanitizer keeps every character of a color code. -/
theorem cleanRune_code {cc : GoStr} (hcc : IsCode cc) : ∀ c ∈ cc, cleanRune c = some c := by
  intro c hc
  rcases isCode_chars hcc c hc with h | h | h | h
  · exact cleanRune_keep (Or.inl h)
  · exact cleanRune_keep (Or.inr (by omega))
  · simp only [isCodeDigit, Bool.or_eq_true, Bool.and_eq_true, decide_eq_true_eq] at h
    exact cleanRune_keep (Or.inr (by omega))
  · exact cleanRune_keep (Or.inr (by omega))

/-- `filterMap` is the identity on a string whose characters are all kept. -/
theorem filterMap_id_of_keep {f : Char → Option Char} :
    ∀ {l : GoStr}, (∀ c ∈ l, f c = some c) → l.filterMap f = l
  | [], _ => rfl
  | c :: l, h => by
    rw [List.filterMap_cons, h c (by simp),
      filterMap_id_of_keep (fun d hd => h d (by simp [hd]))]

/-- The sanitizer preserves well-coloredness. -/
theorem clean_wf : ∀ {s : GoStr}, WfColor s → WfColor (cleanInvisibleChars s) := by
  intro s hwf
  induction hwf with
  | nil => exact WfColor.nil
  | cons c hc hs IH =>
    rw [cleanInvisibleChars, List.filterMap_cons]
    rw [cleanInvisibleChars] at IH
    cases hcr : cleanRune c with
    | none => exact IH
    | some c2 =>
      obtain rfl := cleanRune_some hcr
      exact WfColor.cons _ hc IH
  | @code cc s2 hcc hs IH =>
    rw [cleanInvisibleChars, List.filterMap_append, filterMap_id_of_keep (cleanRune_code hcc)]
    rw [cleanInvisibleChars] at IH
    exact WfColor.code hcc IH

/-- The splitter always returns at least one part. -/
theorem splitOnChar_ne_nil (sep : Char) : ∀ (s : GoStr), splitOnChar sep s ≠ []
  | [] => by simp [splitOnChar]
  | c :: rest => by
    simp only [splitOnChar]
    split
    · simp
    · cases h : splitOnChar sep rest <;> simp

/-- The splitter passes over a separator-free prefix, merging it into the
first part. -/
theorem splitOnChar_append_run (sep : Char) : ∀ (t s : GoStr) (p : GoStr) (ps : List GoStr),
    (∀ c ∈ t, c ≠ sep) → splitOnChar sep s = p :: ps →
    splitOnChar sep (t ++ s) = (t ++ p) :: ps
  | [], s, p, ps, _, h => by simpa using h
  | c :: t, s, p, ps, hall, h => by
    rw [List.cons_append]
    simp only [splitOnChar]
    rw [if_neg (hall c (by simp)),
      splitOnChar_append_run sep t s p ps (fun d hd => hall d (by simp [hd])) h]
    rfl

/-- Splitting a well-colored string on a separator that occurs in no color
code yields well-colored parts. -/
theorem wf_split (sep : Char) (hsepCode : ∀ cc, IsCode cc → sep ∉ cc) :
    ∀ {s : GoStr}, WfColor s → ∀ part ∈ splitOnChar sep s, WfColor part := by
  intro s hwf
  induction hwf with
  | nil =>
    intro part hp
    simp only [splitOnChar, List.mem_singleton] at hp
    subst hp
    exact WfColor.nil
  | @cons c hc s2 hs IH =>
    intro part hp
    by_cases hcs : c = sep
    · simp only [splitOnChar, if_pos hcs] at hp
      rcases List.mem_cons.mp hp with rfl | hp2
      · exact WfColor.nil
      · exact IH part hp2
    · simp only [splitOnChar, if_neg hcs] at hp
      cases hsp : splitOnChar sep s2 with
      | nil => exact absurd hsp (splitOnChar_ne_nil sep s2)
      | cons p ps =>
        rw [hsp] at hp
        dsimp only at hp
        rcases List.mem_cons.mp hp with rfl | hp2
        · exact WfColor.cons c hc (IH p (by rw [hsp]; simp))
        · exact IH part (by rw [hsp]; simp [hp2])
  | @code cc s2 hcc hs IH =>
    intro part hp
    cases hsp : splitOnChar sep s2 with
    | nil => exact absurd hsp (splitOnChar_ne_nil sep s2)
    | cons p ps =>
      rw [splitOnChar_append_run sep cc s2 p ps
        (fun d hdm hde => hsepCode cc hcc (hde ▸ hdm)) hsp] at hp
      rcases List.mem_cons.mp hp with rfl | hp2
      · exact WfColor.code hcc (IH p (by rw [hsp]; simp))
      · exact IH part (by rw [hsp]; simp [hp2])

/-- Neither tab nor newline occurs in a color code. -/
theorem code_no_tab_newline {cc : GoStr} (hcc : IsCode cc) : '\t' ∉ cc ∧ '\n' ∉ cc := by
  constructor <;> intro hm <;>
    rcases isCode_chars hcc _ hm with h | h | h | h <;> exact absurd h (by decide)

/-- The line-splitting step of `Flush` yields well-colored lines from a
well-colored buffer. -/
theorem splitLines_wf {w : Writer} (h : WfColor w.buffer) :
    ∀ line ∈ splitLines w, WfColor line := by
  intro line hl
  rw [splitLines] at hl
  have hparts := wf_split '\n' (fun cc hcc => (code_no_tab_newline hcc).2) (clean_wf h)
  split at hl
  · exact hparts line (List.mem_of_mem_dropLast hl)
  · exact hparts line hl



/-! ### C7: the rendering stages emit no escape character of their own -/

theorem noESC_nil : noESC [] := by simp [noESC]

theorem noESC_append {a b : GoStr} (ha : noESC a) (hb : noESC b) : noESC (a ++ b) := by
  intro hm
  rcases List.mem_append.mp hm with h | h
  · exact ha h
  · exact hb h

theorem noESC_repeatStr {s : GoStr} (h : noESC s) : ∀ n, noESC (repeatStr s n)
  | 0 => noESC_nil
  | n + 1 => noESC_append h (noESC_repeatStr h n)

theorem noESC_replicate_space (n : Nat) : noESC (List.replicate n ' ') := by
  intro hm
  exact absurd (List.eq_of_mem_replicate hm) (by decide)

/-- A defaulted entry of a list of escape-free strings is escape-free. -/
theorem noESC_getD {row : List GoStr} (h : ∀ e ∈ row, noESC e) (c : Nat) :
    noESC (row.getD c []) := by
  rw [List.getD_eq_getElem?_getD]
  rcases hg : row[c]? with _ | v
  · exact noESC_nil
  · exact h v (List.getElem?_mem hg)

/-- Inversion for the byte-repetition helper. -/
theorem goRepeat_inv {ch : Char} {k : Int} {l : GoStr} (h : goRepeat ch k = some l) :
    l = List.replicate k.toNat ch := by
  rw [goRepeat] at h
  split at h
  · cases h
  · exact (Option.some.inj h).symm

/-- Truncation keeps a colorless field escape-free (the cut is a prefix of
it and the marker is plain ASCII). -/
theorem truncateLongField_noESC {flags : Nat} {termCols mfl : Int} {nf c : Nat}
    {field colorless line colorless2 line2 : GoStr}
    (h : truncateLongField flags termCols mfl nf c field colorless line =
      some (colorless2, line2))
    (hne : noESC colorless) : noESC colorless2 := by
  rw [truncateLongField] at h
  split at h
  · cases hg : goSliceTo colorless (mfl - 5) with
    | none => rw [hg] at h; cases h
    | some cut =>
      rw [hg] at h
      dsimp only at h
      simp only [Option.some.injEq, Prod.mk.injEq] at h
      obtain ⟨hcl, -⟩ := h
      rw [← hcl]
      have hcut : noESC cut := by
        rw [goSliceTo] at hg
        split at hg
        · cases hg
        · rw [← Option.some.inj hg]
          intro hm
          exact hne (List.take_subset _ _ hm)
      exact noESC_append hcut (by decide)
  · simp only [Option.some.injEq, Prod.mk.injEq] at h
    obtain ⟨hcl, -⟩ := h
    rw [← hcl]
    exact hne

/-- The colorless entries the field loop produces are escape-free when the
fields are well-colored. -/
theorem fieldLoop_rows_noESC (flags : Nat) (termCols mfl : Int) (nf : Nat) :
    ∀ (fs : List GoStr) (c : Nat) (line : GoStr) (cols : List column)
      (line' : GoStr) (row : List GoStr) (cols' : List column),
      (∀ f ∈ fs, WfColor f) →
      fieldLoop flags termCols mfl nf fs c line cols = some (line', row, cols') →
      ∀ e ∈ row, noESC e
  | [], c, line, cols, line', row, cols', _, h => by
    simp only [fieldLoop, Option.some.injEq, Prod.mk.injEq] at h
    obtain ⟨-, h2, -⟩ := h
    subst h2
    intro e he
    exact absurd he (by simp)
  | f :: fs, c, line, cols, line', row, cols', hwf, h => by
    simp only [fieldLoop] at h
    cases ht : truncateLongField flags termCols mfl nf c f (stripCodes f) line with
    | none => rw [ht] at h; exact absurd h (by simp)
    | some pr =>
      obtain ⟨colorless, line2⟩ := pr
      rw [ht] at h
      dsimp only at h
      cases hr : fieldLoop flags termCols mfl nf fs (c + 1) line2
          (bumpWidth cols c colorless.length) with
      | none => rw [hr] at h; exact absurd h (by simp)
      | some out2 =>
        obtain ⟨line3, row3, cols3⟩ := out2
        rw [hr] at h
        dsimp only at h
        simp only [Option.some.injEq, Prod.mk.injEq] at h
        obtain ⟨-, h5, -⟩ := h
        subst h5
        intro e he
        rcases List.mem_cons.mp he with rfl | he2
        · exact truncateLongField_noESC ht (stripCodes_noESC (hwf f (by simp)))
        · exact fieldLoop_rows_noESC flags termCols mfl nf fs (c + 1) line2 _ _ _ _
            (fun g hg => hwf g (by simp [hg])) hr e he2

/-- The colorless rows `createColumns` produces are escape-free when the
lines are well-colored. -/
theorem linesLoop_rows_noESC (flags : Nat) (termCols : Int) :
    ∀ (lines : List GoStr) (cols : List column)
      (lines' : List GoStr) (rows : List (List GoStr)) (colsF : List column),
      (∀ line ∈ lines, WfColor line) →
      linesLoop flags termCols lines cols = some (lines', rows, colsF) →
      ∀ r ∈ rows, ∀ e ∈ r, noESC e
  | [], cols, lines', rows, colsF, _, h => by
    simp only [linesLoop, Option.some.injEq, Prod.mk.injEq] at h
    obtain ⟨-, h2, -⟩ := h
    subst h2
    intro r hr
    exact absurd hr (by simp)
  | line :: ls, cols, lines', rows, colsF, hlines, h => by
    simp only [linesLoop] at h
    by_cases he : line = []
    · rw [if_pos he] at h
      cases hr : linesLoop flags termCols ls cols with
      | none => rw [hr] at h; exact absurd h (by simp)
      | some out2 =>
        obtain ⟨ls2, rows2, cols2⟩ := out2
        rw [hr] at h
        dsimp only at h
        simp only [Option.some.injEq, Prod.mk.injEq] at h
        obtain ⟨-, h5, -⟩ := h
        subst h5
        intro r hrm
        rcases List.mem_cons.mp hrm with rfl | hrm2
        · intro e hee
          exact absurd hee (by simp)
        · exact linesLoop_rows_noESC flags termCols ls cols _ _ _
            (fun g hg => hlines g (by simp [hg])) hr r hrm2
    · rw [if_neg he] at h
      cases hf : fieldLoop flags termCols
          (Int.tdiv termCols ((splitOnChar '\t' line).length : Int) - 3)
          (splitOnChar '\t' line).length (splitOnChar '\t' line) 0 line
          (if cols.length < (splitOnChar '\t' line).length
            then cols ++ List.replicate ((splitOnChar '\t' line).length - cols.length) ⟨0⟩
            else cols) with
      | none => rw [hf] at h; exact absurd h (by simp)
      | some outf =>
        obtain ⟨line2, row2, cols2⟩ := outf
        rw [hf] at h
        dsimp only at h
        cases hr : linesLoop flags termCols ls cols2 with
        | none => rw [hr] at h; exact absurd h (by simp)
        | some out2 =>
          obtain ⟨ls2, rows2, cols3⟩ := out2
          rw [hr] at h
          dsimp only at h
          simp only [Option.some.injEq, Prod.mk.injEq] at h
          obtain ⟨-, h5, -⟩ := h
          subst h5
          intro r hrm
          rcases List.mem_cons.mp hrm with rfl | hrm2
          · exact fieldLoop_rows_noESC flags termCols _ _ _ 0 line _ _ _ _
              (wf_split '\t' (fun cc hcc => (code_no_tab_newline hcc).1)
                (hlines line (by simp))) hf
          · exact linesLoop_rows_noESC flags termCols ls cols2 _ _ _
              (fun g hg => hlines g (by simp [hg])) hr r hrm2

/-- All glyphs of a divider set are escape-free. -/
def dividersNoESC (dv : Dividers) : Prop :=
  noESC dv.HLine ∧ noESC dv.VLine ∧ noESC dv.TL ∧ noESC dv.TR ∧ noESC dv.BL ∧
  noESC dv.BR ∧ noESC dv.Cross ∧ noESC dv.TUp ∧ noESC dv.TDown ∧ noESC dv.VLeft ∧
  noESC dv.VRight

/-- Both divider sets chosen by `init` are escape-free. -/
theorem dividersNoESC_init (flags : Nat) :
    dividersNoESC (if flags &&& AsciiTable ≠ 0 then asciiDividers else unicodeDividers) := by
  split
  · simp only [dividersNoESC, asciiDividers]
    decide
  · simp only [dividersNoESC, unicodeDividers]
    decide

/-- The paddings `getPadding` returns are runs of spaces. -/
theorem getPadding_noESC {flags : Nat} {cols : List column} {c : Nat} {f : GoStr}
    {tp : Int} {lp rp : GoStr}
    (h : getPadding flags cols c f = some (tp, lp, rp)) : noESC lp ∧ noESC rp := by
  simp only [getPadding] at h
  split at h
  · split at h
    · split at h
      · rename_i lp2 rp2 hg1 hg2
        simp only [Option.some.injEq, Prod.mk.injEq] at h
        obtain ⟨-, h2, h3⟩ := h
        subst h2
        subst h3
        rw [goRepeat_inv hg1, goRepeat_inv hg2]
        exact ⟨noESC_replicate_space _, noESC_replicate_space _⟩
      · cases h
    · split at h
      · split at h
        · rename_i lp2 hg1
          simp only [Option.some.injEq, Prod.mk.injEq] at h
          obtain ⟨-, h2, h3⟩ := h
          subst h2
          subst h3
          rw [goRepeat_inv hg1]
          exact ⟨noESC_replicate_space _, noESC_nil⟩
        · cases h
      · split at h
        · rename_i rp2 hg1
          simp only [Option.some.injEq, Prod.mk.injEq] at h
          obtain ⟨-, h2, h3⟩ := h
          subst h2
          subst h3
          rw [goRepeat_inv hg1]
          exact ⟨noESC_nil, noESC_replicate_space _⟩
        · cases h
  · simp only [Option.some.injEq, Prod.mk.injEq] at h
    obtain ⟨-, h2, h3⟩ := h
    subst h2
    subst h3
    exact ⟨noESC_nil, noESC_nil⟩

/-- `updateHLine` emits only glyphs from the divider set on top of the line
it is given. -/
theorem updateHLine_noESC {dv : Dividers} {termCols : Int} {hl : GoStr}
    {hLineLength : Int} {l : Nat} {isLastRow isLastField : Bool} {r : GoStr}
    (hdv : dividersNoESC dv) (hhl : noESC hl)
    (h : updateHLine dv termCols hl hLineLength l isLastRow isLastField = some r) :
    noESC r := by
  obtain ⟨hH, hV, hTL, hTR, hBL, hBR, hX, hTU, hTD, hVL, hVR⟩ := hdv
  have hhl2 : noESC (if isLastField then
      (if l == 0 then dv.TL ++ hl else if isLastRow then dv.BL ++ hl else dv.VLeft ++ hl)
      else hl) := by
    split
    · split
      · exact noESC_append hTL hhl
      · split
        · exact noESC_append hBL hhl
        · exact noESC_append hVL hhl
    · exact hhl
  have hx : noESC (if l == 0 && !isLastField then dv.TUp else if l == 0 then dv.TR
      else if isLastRow && !isLastField then dv.TDown else if isLastRow then dv.BR
      else if isLastField then dv.VRight else dv.Cross) := by
    split
    · exact hTU
    · split
      · exact hTR
      · split
        · exact hTD
        · split
          · exact hBR
          · split
            · exact hVR
            · exact hX
  simp only [updateHLine] at h
  by_cases h1 : 0 < termCols - Int.tdiv (hl.length : Int) (dv.HLine.length : Int)
  · rw [if_pos h1] at h
    by_cases h2 : hLineLength ≤ termCols - Int.tdiv (hl.length : Int) (dv.HLine.length : Int)
    · rw [if_pos h2, goRepeatStr] at h
      split at h
      · rename_i lp2 heq
        obtain rfl := Option.some.inj h
        have hlp2 : noESC lp2 := by
          split at heq
          · cases heq
          · rw [← Option.some.inj heq]
            exact noESC_repeatStr hH _
        exact noESC_append (noESC_append hhl2 hlp2) hx
      · cases h
    · rw [if_neg h2, goRepeatStr] at h
      split at h
      · rename_i lp2 heq
        obtain rfl := Option.some.inj h
        have hlp2 : noESC lp2 := by
          split at heq
          · cases heq
          · rw [← Option.some.inj heq]
            exact noESC_repeatStr hH _
        exact noESC_append (noESC_append hhl2 hlp2) hx
      · cases h
  · rw [if_neg h1] at h
    obtain rfl := Option.some.inj h
    exact hhl2

/-- The rendering field loop only appends escape-free material when the
strip-colors flag is set. -/
theorem tableFieldLoop_noESC (flags : Nat) (dv : Dividers) (termCols : Int)
    (cols : List column) (row : List GoStr) (nf total l : Nat)
    (hS : flags &&& StripColours ≠ 0) (hdv : dividersNoESC dv)
    (hrow : ∀ e ∈ row, noESC e) :
    ∀ (fs : List GoStr) (c : Nat) (buf pfx hl : GoStr), noESC buf → noESC pfx → noESC hl →
      ∀ {out : GoStr × GoStr × GoStr},
        tableFieldLoop flags dv termCols cols row nf total l fs c buf pfx hl = some out →
        noESC out.1 ∧ noESC out.2.1 ∧ noESC out.2.2
  | [], c, buf, pfx, hl, hb, hp, hh, out, h => by
    simp only [tableFieldLoop, Option.some.injEq] at h
    subst h
    exact ⟨hb, hp, hh⟩
  | f :: fs, c, buf, pfx, hl, hb, hp, hh, out, h => by
    have hV : noESC dv.VLine := hdv.2.1
    simp only [tableFieldLoop] at h
    cases hgp : getPadding flags cols c (row.getD c []) with
    | none => rw [hgp] at h; cases h
    | some tpr =>
      obtain ⟨tp, lp, rp⟩ := tpr
      rw [hgp] at h
      dsimp only at h
      obtain ⟨hlp, hrp⟩ := getPadding_noESC hgp
      have hfield : noESC (if flags &&& StripColours ≠ 0 then row.getD c [] else f) := by
        rw [if_pos hS]
        exact noESC_getD hrow c
      cases hpm : (if l = 0 then updateHLine dv termCols pfx
          (((row.getD c []).length : Int) + tp + 1) 0 (l == total - 1) (c == nf - 1)
          else some pfx) with
      | none => rw [hpm] at h; cases h
      | some pfx2 =>
        rw [hpm] at h
        dsimp only at h
        have hpfx2 : noESC pfx2 := by
          by_cases hl0 : l = 0
          · rw [if_pos hl0] at hpm
            exact updateHLine_noESC hdv hp hpm
          · rw [if_neg hl0] at hpm
            obtain rfl := Option.some.inj hpm
            exact hp
        cases hhm : updateHLine dv termCols hl (((row.getD c []).length : Int) + tp + 1)
            (l + 1) (l == total - 1) (c == nf - 1) with
        | none => rw [hhm] at h; cases h
        | some hl2 =>
          rw [hhm] at h
          dsimp only at h
          refine tableFieldLoop_noESC flags dv termCols cols row nf total l hS hdv hrow
            fs (c + 1) _ pfx2 hl2 ?_ hpfx2 (updateHLine_noESC hdv hh hhm) h
          split
          all_goals
            repeat' apply noESC_append
          all_goals
            first
              | exact hb
              | exact hV
              | exact hlp
              | exact hrp
              | exact hfield
              | exact noESC_getD hrow c

/-- The rendered table is escape-free when the strip-colors flag is set and
all colorless entries are. -/
theorem createTableLoop_noESC (flags : Nat) (dv : Dividers) (termCols : Int)
    (cols : List column) (total : Nat) (hS : flags &&& StripColours ≠ 0)
    (hdv : dividersNoESC dv) :
    ∀ (ls : List GoStr) (l : Nat) (rows : List (List GoStr)),
      (∀ r ∈ rows, ∀ e ∈ r, noESC e) →
      ∀ {out : GoStr}, createTableLoop flags dv termCols cols total l ls rows = some out →
      noESC out
  | [], l, rows, _, out, h => by
    simp only [createTableLoop, Option.some.injEq] at h
    subst h
    exact noESC_nil
  | line :: ls, l, rows, hrows, out, h => by
    simp only [createTableLoop] at h
    by_cases he : line = []
    · rw [if_pos he] at h
      exact createTableLoop_noESC flags dv termCols cols total hS hdv ls (l + 1) rows.tail
        (fun r hr => hrows r (List.mem_of_mem_tail hr)) h
    · rw [if_neg he] at h
      have hhead : ∀ e ∈ rows.headD [], noESC e := by
        cases rows with
        | nil => intro e hee; exact absurd hee (by simp)
        | cons r rs => exact hrows r (by simp)
      cases htf : tableFieldLoop flags dv termCols cols (rows.headD [])
          (splitOnChar '\t' line).length total l (splitOnChar '\t' line) 0 [] [] [] with
      | none => rw [htf] at h; cases h
      | some outf =>
        obtain ⟨buf, pfx, hl⟩ := outf
        rw [htf] at h
        dsimp only at h
        obtain ⟨hbuf, hpfx, hhl⟩ := tableFieldLoop_noESC flags dv termCols cols
          (rows.headD []) (splitOnChar '\t' line).length total l hS hdv hhead
          (splitOnChar '\t' line) 0 [] [] [] noESC_nil noESC_nil noESC_nil htf
        cases hrest : createTableLoop flags dv termCols cols total (l + 1) ls rows.tail with
        | none => rw [hrest] at h; cases h
        | some rest =>
          rw [hrest] at h
          dsimp only at h
          obtain rfl := Option.some.inj h
          have hrestE : noESC rest :=
            createTableLoop_noESC flags dv termCols cols total hS hdv ls (l + 1) rows.tail
              (fun r hr => hrows r (List.mem_of_mem_tail hr)) hrest
          have hnl : noESC ['\n'] := by decide
          have hpfxE : noESC (if l = 0 then pfx ++ ['\n'] else []) := by
            split
            · exact noESC_append hpfx hnl
            · exact noESC_nil
          exact noESC_append (noESC_append (noESC_append (noESC_append
            (noESC_append hpfxE hbuf) hnl) hhl) hnl) hrestE

/-- C7 (amended): with the strip-colors flag set, the rendered output of a
flush contains no escape character, provided every escape character of the
input buffer begins a well-formed color escape sequence.  (A bare escape
character survives the sanitizer and the regex, and reaches the output:
see the counterexample.) -/
theorem C7_strip_colours_no_escape (termCols : Int) (flags : Nat) (buf out : GoStr)
    (hS : flags &&& StripColours ≠ 0) (hwf : WfColor buf)
    (h : renderOutput (mkWriter termCols flags buf) = some out) : noESC out := by
  have hlines : ∀ line ∈ splitLines (mkWriter termCols flags buf), WfColor line :=
    splitLines_wf hwf
  simp only [mkWriter, Writer.init] at hlines
  simp only [renderOutput, formatBuffer, createColumns, createTable, mkWriter,
    Writer.init] at h
  cases hll : linesLoop flags termCols
      (splitLines
        { dividers := if flags &&& AsciiTable ≠ 0 then asciiDividers else unicodeDividers,
          flags := flags, termCols := termCols, buffer := buf, columns := [],
          lines := [] }) [] with
  | none => rw [hll] at h; cases h
  | some outl =>
    obtain ⟨lines2, rows, colsF⟩ := outl
    rw [hll] at h
    dsimp only at h
    have hrows := linesLoop_rows_noESC flags termCols _ [] _ _ _ hlines hll
    exact createTableLoop_noESC flags _ termCols colsF lines2.length hS
      (dividersNoESC_init flags) lines2 0 rows hrows h

/-- C7 (witness): the amended theorem on the buffer consisting of `a`, a red
color code, and `b`, with terminal width 80 and the strip flag: the rendered
table, computed concretely, is escape-free. -/
theorem C7_witness : noESC (goStr "┌───┐\n│ab │\n└───┘\n") := by
  have hcode : IsCode ['\x1b', '[', '3', '1', 'm'] :=
    ⟨['3', '1'], by decide, by decide, rfl⟩
  have hwf : WfColor ('a' :: (['\x1b', '[', '3', '1', 'm'] ++ ['b'])) :=
    WfColor.cons 'a' (by decide)
      (WfColor.code hcode (WfColor.cons 'b' (by decide) WfColor.nil))
  exact C7_strip_colours_no_escape 80 1 ('a' :: (['\x1b', '[', '3', '1', 'm'] ++ ['b']))
    (goStr "┌───┐\n│ab │\n└───┘\n") (by decide) hwf (by decide)

/-- C7 (counterexample): a bare escape character (not starting a well-formed
color code) survives stripping: with the strip flag set, the buffer
`a ESC b` renders to output that still contains the escape character. -/
theorem C7_counterexample :
    renderOutput (mkWriter 80 StripColours (goStr "a\x1bb")) =
      some (goStr "┌────┐\n│a\x1bb │\n└────┘\n") ∧
    '\x1b' ∈ (goStr "┌────┐\n│a\x1bb │\n└────┘\n") := by decide


end TableWriter
